import Mathlib

/-!
# Verification of the consumemate chunked TTS pipeline

Shallow embedding of the core text-to-speech pipeline of the repository:

* `src/backend/src/services/ttsService.ts` — text normalisation
  (`prepareTextForSpeech`), chunk splitting (`splitIntoChunks`), word-timing
  extraction (`convertWithTimestamps`), chunk generation (`generateChunk`,
  `getChunkCount`);
* `src/backend/src/controllers/authController.ts` — `generateAudioChunk`
  (cache-first chunk orchestration);
* `src/mobile/lib/tts/EdgeTTSProvider.ts` — estimated word timings;
* `src/mobile/lib/tts/ElevenLabsProvider.ts` (unnamed part_019) —
  client-side `getChunkCount`;
* `src/mobile/app/article/[id].tsx` — `currentWordIndex` derivation;
* `src/swift/Consumemate/Sources/Services/AudioPlayerService.swift` —
  the playback sequencer (`addChunk`, `recalculateTimings`, `seek`).

Strings are modelled as `List Char` (JavaScript strings / Swift strings at
character granularity).  JavaScript numbers holding times are modelled as `ℚ`
(exact where the source is exact; all arithmetic appearing in the modelled
code paths — integer adds, halving, `Math.round`, Swift `Int(_)` — is exact
on the values involved).  Fallible code returns `Except`.
-/

set_option maxRecDepth 20000

namespace Consumemate

/-- ASCII part of JavaScript's `\s` character class (space, `\n`, `\t`, `\r`,
vertical tab, form feed); the same set backs `String.prototype.trim`. -/
def isWS (c : Char) : Bool :=
  c == ' ' || c == '\n' || c == '\t' || c == '\r' ||
    c == Char.ofNat 11 || c == Char.ofNat 12

/-- JavaScript `String.prototype.trim`: drop leading and trailing whitespace. -/
def jsTrim (l : List Char) : List Char :=
  ((l.dropWhile isWS).reverse.dropWhile isWS).reverse

/-- JavaScript `Math.round` (round half toward positive infinity). -/
def jsRound (q : ℚ) : ℤ := ⌊q + 1/2⌋

/-- Swift `Int(_)` conversion from a floating value: truncation toward zero. -/
def swiftTrunc (q : ℚ) : ℤ := if 0 ≤ q then ⌊q⌋ else -⌊-q⌋

/-- `String.prototype.lastIndexOf(pat)`: start index of the last occurrence of
`pat` (as a `ℤ`, `-1` when there is none).  Only called with non-empty `pat`
in the modelled code. -/
def lastIndexOfAux (pat : List Char) : List Char → ℕ → ℤ → ℤ
  | [], _, best => best
  | c :: cs, i, best =>
      lastIndexOfAux pat cs (i + 1) (if pat.isPrefixOf (c :: cs) then (i : ℤ) else best)

def lastIndexOf (pat s : List Char) : ℤ :=
  lastIndexOfAux pat s 0 (-1)

/-- `String.prototype.indexOf(pat)`-style first occurrence (as an offset). -/
def firstIndexOfAux (pat : List Char) : List Char → ℕ → Option ℕ
  | [], _ => none
  | c :: cs, i => if pat.isPrefixOf (c :: cs) then some i else firstIndexOfAux pat cs (i + 1)

def firstIndexOf (pat s : List Char) : Option ℕ :=
  firstIndexOfAux pat s 0

/-!
## A small engine for JavaScript `String.prototype.replace(/re/g, repl)`

Each regex of the source is a deterministic pattern (its character classes
exclude their own closers, and lazy parts stop at the first closer), so a
match attempt at a position is a function `matcher : Option Char → List Char →
Option (ℕ × List Char)` receiving the previous character of the original
string (for `\b`) and the remaining input, and returning the matched length
(always ≥ 1 for the patterns below) together with the replacement text.
`replAll` mirrors the global-replace scan: try at each position, on a match
emit the replacement and continue right after the match.
-/

def replAll (tm : Option Char → List Char → Option (ℕ × List Char)) :
    ℕ → Option Char → List Char → List Char
  | _, _, [] => []
  | 0, _, l => l
  | fuel + 1, prev, c :: cs =>
    match tm prev (c :: cs) with
    | some (k, repl) =>
        repl ++ replAll tm fuel ((c :: cs).take (max k 1)).getLast? ((c :: cs).drop (max k 1))
    | none => c :: replAll tm fuel (some c) cs

/-- Run a global replace over the whole string (fuel `length` suffices since
every step consumes at least one character). -/
def applyRepl (tm : Option Char → List Char → Option (ℕ × List Char))
    (s : List Char) : List Char :=
  replAll tm s.length none s

/-! ### The matchers of `prepareTextForSpeech` (ttsService.ts lines 65–106;
the identical function also appears in EdgeTTSProvider.ts lines 74–109). -/

/-- `/!\[[^\]]*\]\([^)]+\)/g → ''` — inline markdown image. -/
def tmImageInline (_ : Option Char) (s : List Char) : Option (ℕ × List Char) :=
  match s with
  | '!' :: '[' :: rest =>
    let alt := rest.takeWhile (· != ']')
    match rest.dropWhile (· != ']') with
    | ']' :: '(' :: rest2 =>
      let url := rest2.takeWhile (· != ')')
      if url.isEmpty then none
      else
        match rest2.dropWhile (· != ')') with
        | ')' :: _ => some (2 + alt.length + 2 + url.length + 1, [])
        | _ => none
    | _ => none
  | _ => none

/-- `/!\[[^\]]*\]\[[^\]]*\]/g → ''` — reference-style markdown image. -/
def tmImageRef (_ : Option Char) (s : List Char) : Option (ℕ × List Char) :=
  match s with
  | '!' :: '[' :: rest =>
    let alt := rest.takeWhile (· != ']')
    match rest.dropWhile (· != ']') with
    | ']' :: '[' :: rest2 =>
      let ref := rest2.takeWhile (· != ']')
      match rest2.dropWhile (· != ']') with
      | ']' :: _ => some (2 + alt.length + 2 + ref.length + 1, [])
      | _ => none
    | _ => none
  | _ => none

/-- `/!\[[^\]]*\]/g → ''` — leftover reference-style image. -/
def tmImageBare (_ : Option Char) (s : List Char) : Option (ℕ × List Char) :=
  match s with
  | '!' :: '[' :: rest =>
    let alt := rest.takeWhile (· != ']')
    match rest.dropWhile (· != ']') with
    | ']' :: _ => some (2 + alt.length + 1, [])
    | _ => none
  | _ => none

/-- `/<img[^>]*>/gi → ''` — HTML `img` tag. -/
def tmImgTag (_ : Option Char) (s : List Char) : Option (ℕ × List Char) :=
  match s with
  | '<' :: c1 :: c2 :: c3 :: rest =>
    if c1.toLower == 'i' && c2.toLower == 'm' && c3.toLower == 'g' then
      let inner := rest.takeWhile (· != '>')
      match rest.dropWhile (· != '>') with
      | '>' :: _ => some (4 + inner.length + 1, [])
      | _ => none
    else none
  | _ => none

/-- `/\[([^\]]+)\]\(([^)]+)\)/g → '$1'` — inline markdown link to its label. -/
def tmLinkInline (_ : Option Char) (s : List Char) : Option (ℕ × List Char) :=
  match s with
  | '[' :: rest =>
    let label := rest.takeWhile (· != ']')
    if label.isEmpty then none
    else
      match rest.dropWhile (· != ']') with
      | ']' :: '(' :: rest2 =>
        let url := rest2.takeWhile (· != ')')
        if url.isEmpty then none
        else
          match rest2.dropWhile (· != ')') with
          | ')' :: _ => some (1 + label.length + 2 + url.length + 1, label)
          | _ => none
      | _ => none
  | _ => none

/-- `/\[([^\]]+)\]\[[^\]]*\]/g → '$1'` — reference-style markdown link. -/
def tmLinkRef (_ : Option Char) (s : List Char) : Option (ℕ × List Char) :=
  match s with
  | '[' :: rest =>
    let label := rest.takeWhile (· != ']')
    if label.isEmpty then none
    else
      match rest.dropWhile (· != ']') with
      | ']' :: '[' :: rest2 =>
        let ref := rest2.takeWhile (· != ']')
        match rest2.dropWhile (· != ']') with
        | ']' :: _ => some (1 + label.length + 2 + ref.length + 1, label)
        | _ => none
      | _ => none
  | _ => none

/-- The stop class `[^\s\])>"']` of the two URL-stripping regexes. -/
def urlStop (c : Char) : Bool :=
  isWS c || c == ']' || c == ')' || c == '>' || c == '"' || c == '\''

/-- The optional `s` of `https?` (count of characters consumed, rest). -/
def optS : List Char → ℕ × List Char
  | c :: r => if c.toLower == 's' then (1, r) else (0, c :: r)
  | [] => (0, [])

/-- `/https?:\/\/[^\s\])>"']+/gi → ''`. -/
def tmHttpUrl (_ : Option Char) (s : List Char) : Option (ℕ × List Char) :=
  match s with
  | h :: t1 :: t2 :: p :: rest =>
    if h.toLower == 'h' && t1.toLower == 't' && t2.toLower == 't' && p.toLower == 'p' then
      match optS rest with
      | (sLen, ':' :: '/' :: '/' :: rest3) =>
        let body := rest3.takeWhile (fun c => !urlStop c)
        if body.isEmpty then none else some (4 + sLen + 3 + body.length, [])
      | _ => none
    else none
  | _ => none

/-- `/www\.[^\s\])>"']+/gi → ''`. -/
def tmWwwUrl (_ : Option Char) (s : List Char) : Option (ℕ × List Char) :=
  match s with
  | w1 :: w2 :: w3 :: '.' :: rest =>
    if w1.toLower == 'w' && w2.toLower == 'w' && w3.toLower == 'w' then
      let body := rest.takeWhile (fun c => !urlStop c)
      if body.isEmpty then none else some (4 + body.length, [])
    else none
  | _ => none

/-- `/#{1,6}\s*/g → ''` — markdown headers. -/
def tmHeader (_ : Option Char) (s : List Char) : Option (ℕ × List Char) :=
  match s with
  | '#' :: _ =>
    let run := s.takeWhile (· == '#')
    let hashes := min 6 run.length
    let ws := (s.drop hashes).takeWhile isWS
    some (hashes + ws.length, [])
  | _ => none

/-- `/\*\*([^*]+)\*\*/g → '$1'` — bold. -/
def tmBold (_ : Option Char) (s : List Char) : Option (ℕ × List Char) :=
  match s with
  | '*' :: '*' :: rest =>
    let content := rest.takeWhile (· != '*')
    if content.isEmpty then none
    else
      match rest.dropWhile (· != '*') with
      | '*' :: '*' :: _ => some (2 + content.length + 2, content)
      | _ => none
  | _ => none

/-- `/\*([^*]+)\*/g → '$1'` — italic. -/
def tmItalic (_ : Option Char) (s : List Char) : Option (ℕ × List Char) :=
  match s with
  | '*' :: rest =>
    let content := rest.takeWhile (· != '*')
    if content.isEmpty then none
    else
      match rest.dropWhile (· != '*') with
      | '*' :: _ => some (1 + content.length + 1, content)
      | _ => none
  | _ => none

/-- `/__([^_]+)__/g → '$1'` — bold (underscores). -/
def tmBoldU (_ : Option Char) (s : List Char) : Option (ℕ × List Char) :=
  match s with
  | '_' :: '_' :: rest =>
    let content := rest.takeWhile (· != '_')
    if content.isEmpty then none
    else
      match rest.dropWhile (· != '_') with
      | '_' :: '_' :: _ => some (2 + content.length + 2, content)
      | _ => none
  | _ => none

/-- `/_([^_]+)_/g → '$1'` — italic (underscores). -/
def tmItalicU (_ : Option Char) (s : List Char) : Option (ℕ × List Char) :=
  match s with
  | '_' :: rest =>
    let content := rest.takeWhile (· != '_')
    if content.isEmpty then none
    else
      match rest.dropWhile (· != '_') with
      | '_' :: _ => some (1 + content.length + 1, content)
      | _ => none
  | _ => none

/-- ``/`([^`]+)`/g → '$1'`` — inline code. -/
def tmInlineCode (_ : Option Char) (s : List Char) : Option (ℕ × List Char) :=
  match s with
  | '`' :: rest =>
    let content := rest.takeWhile (· != '`')
    if content.isEmpty then none
    else
      match rest.dropWhile (· != '`') with
      | '`' :: _ => some (1 + content.length + 1, content)
      | _ => none
  | _ => none

/-- ``/```[\s\S]*?```/g → ''`` — fenced code block (lazy body). -/
def tmCodeBlock (_ : Option Char) (s : List Char) : Option (ℕ × List Char) :=
  match s with
  | '`' :: '`' :: '`' :: rest =>
    match firstIndexOf ['`', '`', '`'] rest with
    | some i => some (3 + i + 3, [])
    | none => none
  | _ => none

/-- `/~~([^~]+)~~/g → '$1'` — strikethrough. -/
def tmStrike (_ : Option Char) (s : List Char) : Option (ℕ × List Char) :=
  match s with
  | '~' :: '~' :: rest =>
    let content := rest.takeWhile (· != '~')
    if content.isEmpty then none
    else
      match rest.dropWhile (· != '~') with
      | '~' :: '~' :: _ => some (2 + content.length + 2, content)
      | _ => none
  | _ => none

/-- `/<[^>]+>/gi → ''` — remaining HTML tags. -/
def tmHtmlTag (_ : Option Char) (s : List Char) : Option (ℕ × List Char) :=
  match s with
  | '<' :: rest =>
    let inner := rest.takeWhile (· != '>')
    if inner.isEmpty then none
    else
      match rest.dropWhile (· != '>') with
      | '>' :: _ => some (1 + inner.length + 1, [])
      | _ => none
  | _ => none

/-- JavaScript `\w` (word character). -/
def isWordChar (c : Char) : Bool := c.isAlphanum || c == '_'

/-- `/\bhttps?:\/\/\S+/gi → ''` — remaining URLs (with a word boundary). -/
def tmHttpUrlB (prev : Option Char) (s : List Char) : Option (ℕ × List Char) :=
  let boundary :=
    match prev with
    | none => true
    | some pc => !isWordChar pc
  if boundary then
    match s with
    | h :: t1 :: t2 :: p :: rest =>
      if h.toLower == 'h' && t1.toLower == 't' && t2.toLower == 't' && p.toLower == 'p' then
        match optS rest with
        | (sLen, ':' :: '/' :: '/' :: rest3) =>
          let body := rest3.takeWhile (fun c => !isWS c)
          if body.isEmpty then none else some (4 + sLen + 3 + body.length, [])
        | _ => none
      else none
    | _ => none
  else none

/-- `/\n{3,}/g → '\n\n'` — collapse runs of 3+ newlines to a double newline. -/
def tmTripleNl (_ : Option Char) (s : List Char) : Option (ℕ × List Char) :=
  match s with
  | '\n' :: '\n' :: '\n' :: rest =>
      some (3 + (rest.takeWhile (· == '\n')).length, ['\n', '\n'])
  | _ => none

/-- `/  +/g → ' '` — collapse runs of 2+ spaces to a single space. -/
def tmMultiSpace (_ : Option Char) (s : List Char) : Option (ℕ × List Char) :=
  match s with
  | ' ' :: ' ' :: rest => some (2 + (rest.takeWhile (· == ' ')).length, [' '])
  | _ => none

/-- `prepareTextForSpeech` (ttsService.ts 65–106, EdgeTTSProvider.ts 74–109):
the full sequence of replaces followed by `trim()`. -/
def prepareTextForSpeech (text : List Char) : List Char :=
  let c1 := applyRepl tmImageInline text
  let c2 := applyRepl tmImageRef c1
  let c3 := applyRepl tmImageBare c2
  let c4 := applyRepl tmImgTag c3
  let c5 := applyRepl tmLinkInline c4
  let c6 := applyRepl tmLinkRef c5
  let c7 := applyRepl tmHttpUrl c6
  let c8 := applyRepl tmWwwUrl c7
  let c9 := applyRepl tmHeader c8
  let c10 := applyRepl tmBold c9
  let c11 := applyRepl tmItalic c10
  let c12 := applyRepl tmBoldU c11
  let c13 := applyRepl tmItalicU c12
  let c14 := applyRepl tmInlineCode c13
  let c15 := applyRepl tmCodeBlock c14
  let c16 := applyRepl tmStrike c15
  let c17 := applyRepl tmHtmlTag c16
  let c18 := applyRepl tmHttpUrlB c17
  let c19 := applyRepl tmTripleNl c18
  let c20 := applyRepl tmMultiSpace c19
  jsTrim c20

/-!
## The chunk splitter (`splitIntoChunks`, ttsService.ts 109–155)

Parameterised by `maxChars` (the backend instance uses
`MAX_CHUNK_CHARS = 4500`, the EdgeTTS client the same algorithm with 1000).
-/

def sentenceEnders : List (List Char) :=
  [['.', ' '], ['!', ' '], ['?', ' '], ['.', '\n'], ['!', '\n'], ['?', '\n']]

/-- The fold over `sentenceEnders` computing `bestSplit` (initially `-1`). -/
def bestSentenceSplit (maxChars : ℕ) (searchText : List Char) : ℤ :=
  sentenceEnders.foldl
    (fun bestSplit ender =>
      let lastIndex := lastIndexOf ender searchText
      if lastIndex > bestSplit ∧ (lastIndex : ℚ) > (maxChars : ℚ) * (1/2) then
        lastIndex + (ender.length : ℤ) - 1
      else bestSplit)
    (-1)

/-- The split-point selection of one loop iteration (sentence ender, else
newline past the half threshold, else space past it, else hard `maxChars`). -/
def chooseSplitPoint (maxChars : ℕ) (searchText : List Char) : ℤ :=
  let bestSplit := bestSentenceSplit maxChars searchText
  if bestSplit > 0 then bestSplit + 1
  else
    let lastNewline := lastIndexOf ['\n'] searchText
    if (lastNewline : ℚ) > (maxChars : ℚ) * (1/2) then lastNewline + 1
    else
      let lastSpace := lastIndexOf [' '] searchText
      if (lastSpace : ℚ) > (maxChars : ℚ) * (1/2) then lastSpace + 1
      else (maxChars : ℤ)

/-- The `while (remaining.length > 0)` loop, fuelled (each iteration consumes
at least one character, so fuel `text.length + 1` is enough). -/
def splitIntoChunksFuel (maxChars : ℕ) : ℕ → List Char → List (List Char)
  | _, [] => []
  | 0, _ => []
  | fuel + 1, remaining =>
    if remaining.length ≤ maxChars then [remaining]
    else
      let searchText := remaining.take maxChars
      let splitPoint := (chooseSplitPoint maxChars searchText).toNat
      jsTrim (remaining.take splitPoint) ::
        splitIntoChunksFuel maxChars fuel (jsTrim (remaining.drop splitPoint))

/-- `splitIntoChunks` with the final `filter(chunk => chunk.length > 0)`. -/
def splitIntoChunks (maxChars : ℕ) (text : List Char) : List (List Char) :=
  (splitIntoChunksFuel maxChars (text.length + 1) text).filter (fun c => !c.isEmpty)

/-- Backend chunk limit (`MAX_CHUNK_CHARS`, ttsService.ts line 43). -/
def MAX_CHUNK_CHARS : ℕ := 4500

/-- `getChunkCount` (ttsService.ts 319–324): clean, split, count. -/
def getChunkCount (text : List Char) : ℕ :=
  (splitIntoChunks MAX_CHUNK_CHARS (prepareTextForSpeech text)).length

end Consumemate

namespace Consumemate

/-!
## Word timings and the alignment extractor (`convertWithTimestamps`,
ttsService.ts 158–217)
-/

/-- A word timing `{ word, start, end }` in milliseconds (the `end` field is
called `stop` here because `end` is reserved in Lean). -/
structure WordTiming where
  word : List Char
  start : ℤ
  stop : ℤ
  deriving DecidableEq, Repr

instance : Inhabited WordTiming := ⟨⟨[], 0, 0⟩⟩

/-- Provider alignment data (`response.alignment`): per-character start/end
times in seconds. -/
structure Alignment where
  characters : List Char
  characterStartTimesSeconds : List ℚ
  characterEndTimesSeconds : List ℚ
  deriving DecidableEq, Repr

/-- The character loop of `convertWithTimestamps` (lines 180–210), run on the
zipped `(character, startTime, endTime)` triples.  State: the current word,
its `wordStart`, and the previous character's end time (the source reads it
as `characterEndTimesSeconds[i - 1]`, and as the last entry for the final
flush). -/
def extractWordsLoop : List (Char × ℚ × ℚ) → List Char → ℚ → ℚ → List WordTiming
  | [], currentWord, wordStart, prevEnd =>
    if (jsTrim currentWord).isEmpty then []
    else [⟨jsTrim currentWord, jsRound (wordStart * 1000), jsRound (prevEnd * 1000)⟩]
  | (ch, st, en) :: rest, currentWord, wordStart, prevEnd =>
    if ch == ' ' || ch == '\n' then
      (if (jsTrim currentWord).isEmpty then []
       else [⟨jsTrim currentWord, jsRound (wordStart * 1000), jsRound (prevEnd * 1000)⟩]) ++
        extractWordsLoop rest [] en en
    else
      extractWordsLoop rest (currentWord ++ [ch])
        (if currentWord.isEmpty then st else wordStart) en

/-- Word timings from provider alignment data. -/
def alignmentToWordTimings (al : Alignment) : List WordTiming :=
  extractWordsLoop
    (al.characters.zip (al.characterStartTimesSeconds.zip al.characterEndTimesSeconds))
    [] 0 0

/-!
## The external synthesis provider and `generateChunk`
(ttsService.ts 327–364, §6 of the spec)

The ElevenLabs client is external; it is modelled as a script of responses,
one consumed per call (`synthesize(text, voice) -> (audioBytes, alignment?)`
per the spec), so stubs like "fails with QuotaExceeded" or "only serves one
call" are concrete scripts.
-/

inductive SynthError
  | quotaExceeded
  | transientNetwork
  | invalidVoice
  | unknown
  deriving DecidableEq, Repr

/-- A provider response: audio bytes plus optional alignment. -/
structure SynthResp where
  audio : List ℕ
  alignment : Option Alignment
  deriving DecidableEq, Repr

/-- The provider stub: a script of pending call results. -/
abbrev ProviderScript := List (Except SynthError SynthResp)

/-- One call to the external provider consumes the head of the script (an
exhausted stub fails). -/
def providerCall : ProviderScript → Except SynthError SynthResp × ProviderScript
  | [] => (.error .unknown, [])
  | r :: rest => (r, rest)

/-- `convertWithTimestamps` (ttsService.ts 158–217): one provider call; on
success the alignment (when present) is turned into word timings. -/
def convertWithTimestamps (_text : List Char) (_voiceId : String) (p : ProviderScript) :
    Except SynthError (List ℕ × List WordTiming) × ProviderScript :=
  match providerCall p with
  | (.ok resp, p') =>
      (.ok (resp.audio,
        match resp.alignment with
        | some al => alignmentToWordTimings al
        | none => []), p')
  | (.error e, p') => (.error e, p')

/-- `convertChunkToAudio` (ttsService.ts 220–234): one provider call, audio
only. -/
def convertChunkToAudio (_text : List Char) (_voiceId : String) (p : ProviderScript) :
    Except SynthError (List ℕ) × ProviderScript :=
  match providerCall p with
  | (.ok resp, p') => (.ok resp.audio, p')
  | (.error e, p') => (.error e, p')

inductive TtsError
  | invalidChunkIndex (idx total : ℕ)
  | synth (e : SynthError)
  deriving DecidableEq, Repr

structure ChunkedSpeechResult where
  audio : List ℕ
  wordTimings : List WordTiming
  chunkText : List Char
  chunkIndex : ℕ
  totalChunks : ℕ
  deriving DecidableEq, Repr

/-- `generateChunk` (ttsService.ts 327–364): clean, split, bounds-check the
index, try `convertWithTimestamps`, on failure fall back to
`convertChunkToAudio` (whose error, if any, propagates untouched). -/
def generateChunk (text : List Char) (voiceId : String) (chunkIndex : ℕ)
    (p : ProviderScript) : Except TtsError ChunkedSpeechResult × ProviderScript :=
  let cleanedText := prepareTextForSpeech text
  let chunks := splitIntoChunks MAX_CHUNK_CHARS cleanedText
  let totalChunks := chunks.length
  if chunkIndex ≥ totalChunks then (.error (.invalidChunkIndex chunkIndex totalChunks), p)
  else
    let chunkText := chunks.getD chunkIndex []
    match convertWithTimestamps chunkText voiceId p with
    | (.ok (audio, wordTimings), p') =>
        (.ok ⟨audio, wordTimings, chunkText, chunkIndex, totalChunks⟩, p')
    | (.error _, p') =>
        match convertChunkToAudio chunkText voiceId p' with
        | (.ok audio, p'') => (.ok ⟨audio, [], chunkText, chunkIndex, totalChunks⟩, p'')
        | (.error e2, p'') => (.error (.synth e2), p'')

/-!
## The chunk cache and the controller's `generateAudioChunk`
(authController.ts 270–341)

The cache itself lives in `articleService` (not part of the sources); it is
modelled from the spec: `get(articleId, voiceId, chunkIndex) -> ChunkAudio |
absent`, `put(articleId, voiceId, chunkIndex, ChunkAudio)`, entries immutable
once written, a rewrite replaces.
-/

structure CachedChunk where
  audioData : List ℕ
  wordTimings : List WordTiming
  deriving DecidableEq, Repr

abbrev CacheKey := ℕ × String × ℕ

abbrev ChunkCache := List (CacheKey × CachedChunk)

/-- Modelled from the spec: `articleService.getCachedChunk` — keyed lookup by
`(articleId, voiceId, chunkIndex)`. -/
def cacheGet (cache : ChunkCache) (k : CacheKey) : Option CachedChunk :=
  (cache.find? (fun e => e.1 == k)).map (·.2)

/-- Modelled from the spec: `articleService.saveAudioChunk` — keyed put;
writing an existing key replaces the entry. -/
def cachePut (cache : ChunkCache) (k : CacheKey) (v : CachedChunk) : ChunkCache :=
  (k, v) :: cache.filter (fun e => e.1 != k)

structure AudioChunkResponse where
  audioData : List ℕ
  wordTimings : List WordTiming
  chunkText : List Char
  chunkIndex : ℕ
  totalChunks : ℕ
  cached : Bool
  deriving DecidableEq, Repr

/-- `generateAudioChunk` (authController.ts 270–341): cache first — a hit is
returned as-is (with `chunkText: ''`, `cached: true`, and `totalChunks`
recomputed via the pure `getChunkCount`); on a miss `generateChunk` runs and
a success is written to the cache before being returned.  `plainText` is the
plain text the controller derives from the article's stored Markdown (a pure
function of the article, identical on every call for the same article). -/
def generateAudioChunk (articleId : ℕ) (plainText : List Char) (voiceId : String)
    (chunkIndex : ℕ) (cache : ChunkCache) (p : ProviderScript) :
    Except TtsError AudioChunkResponse × ChunkCache × ProviderScript :=
  match cacheGet cache (articleId, voiceId, chunkIndex) with
  | some cachedChunk =>
      (.ok ⟨cachedChunk.audioData, cachedChunk.wordTimings, [], chunkIndex,
        getChunkCount plainText, true⟩, cache, p)
  | none =>
      match generateChunk plainText voiceId chunkIndex p with
      | (.ok result, p') =>
          (.ok ⟨result.audio, result.wordTimings, result.chunkText, result.chunkIndex,
              result.totalChunks, false⟩,
            cachePut cache (articleId, voiceId, chunkIndex)
              ⟨result.audio, result.wordTimings⟩, p')
      | (.error e, p') => (.error e, cache, p')

end Consumemate

namespace Consumemate

/-!
## The mobile ElevenLabs provider (`ElevenLabsProvider.ts`, unnamed part_019)
-/

/-- `/!\[.*?\]\(.*?\)/g → ''` — the lazy image regex of
`cleanTextForSpeech`: scan (without crossing a newline, since `.` does not
match `\n`) for the first `](`. -/
def scanToBrParen : List Char → Option (ℕ × List Char)
  | ']' :: '(' :: rest => some (0, rest)
  | '\n' :: _ => none
  | _ :: cs => (scanToBrParen cs).map (fun pr => (pr.1 + 1, pr.2))
  | [] => none

/-- Scan (without crossing a newline) for the first `)`. -/
def scanToParen : List Char → Option ℕ
  | ')' :: _ => some 0
  | '\n' :: _ => none
  | _ :: cs => (scanToParen cs).map (· + 1)
  | [] => none

def tmImageLazy (_ : Option Char) (s : List Char) : Option (ℕ × List Char) :=
  match s with
  | '!' :: '[' :: rest =>
    match scanToBrParen rest with
    | some (q, rest2) =>
      match scanToParen rest2 with
      | some r => some (2 + q + 2 + r + 1, [])
      | none => none
    | none => none
  | _ => none

/-- ``/[#*`_~]/g → ''`` — strip markdown formatting characters. -/
def tmMdChar (_ : Option Char) (s : List Char) : Option (ℕ × List Char) :=
  match s with
  | c :: _ =>
    if c == '#' || c == '*' || c == '`' || c == '_' || c == '~' then some (1, [])
    else none
  | [] => none

/-- `cleanTextForSpeech` (ElevenLabsProvider.ts): basic cleaning — images,
links, formatting characters, line breaks, trim. -/
def cleanTextForSpeech (text : List Char) : List Char :=
  let c1 := applyRepl tmImageLazy text
  let c2 := applyRepl tmLinkInline c1
  let c3 := applyRepl tmMdChar c2
  let c4 := applyRepl tmTripleNl c3
  jsTrim c4

/-- `getChunkCount` of the mobile `ElevenLabsProvider`:
`Math.ceil(cleanedText.length / 1000) || 1` with a local
`MAX_CHUNK_CHARS = 1000`. -/
def mobileGetChunkCount (text : List Char) : ℕ :=
  let cleanedText := cleanTextForSpeech text
  let n := (cleanedText.length + 999) / 1000
  if n = 0 then 1 else n

/-!
## Estimated word timings (`EdgeTTSProvider.ts` 164–175)
-/

/-- `text.split(/\s+/).filter(w => w.length > 0)`: the whitespace-separated
words of a string (accumulator-style, structural recursion). -/
def wordsAux : List Char → List Char → List (List Char)
  | [], acc => if acc.isEmpty then [] else [acc.reverse]
  | c :: cs, acc =>
    if isWS c then
      if acc.isEmpty then wordsAux cs [] else acc.reverse :: wordsAux cs []
    else wordsAux cs (c :: acc)

def wordsOf (l : List Char) : List (List Char) := wordsAux l []

/-- The punctuation class `[.,!?;:'"]` stripped from estimated words. -/
def isPunct (c : Char) : Bool :=
  c == '.' || c == ',' || c == '!' || c == '?' || c == ';' || c == ':' ||
    c == '\'' || c == '"'

/-- `generateEstimatedWordTimings`: each word gets an equal slice of the
total duration, `end = round((i+1)*avg - 10)` ten milliseconds short of the
next slice. -/
def generateEstimatedWordTimings (text : List Char) (audioDurationMs : ℚ) :
    List WordTiming :=
  let words := wordsOf text
  if words.length = 0 then []
  else
    let avgWordDurationMs := audioDurationMs / words.length
    words.enum.map (fun iw =>
      ⟨iw.2.filter (fun c => !isPunct c),
        jsRound (iw.1 * avgWordDurationMs),
        jsRound ((iw.1 + 1) * avgWordDurationMs - 10)⟩)

/-!
## The mobile word-highlight derivation
(`currentWordIndex`, mobile/app/article/[id].tsx 486–505)
-/

/-- The `for` loop of the `useMemo`: containment in the closed interval
`[start, end]` or a strict gap before the next word reports the current
index. -/
def currentWordLoop (p : ℤ) : List WordTiming → ℕ → Option ℕ
  | [], _ => none
  | [t], i => if t.start ≤ p ∧ p ≤ t.stop then some i else none
  | t :: t' :: rest, i =>
    if t.start ≤ p ∧ p ≤ t.stop then some i
    else if t.stop < p ∧ p < t'.start then some i
    else currentWordLoop p (t' :: rest) (i + 1)

/-- `currentWordIndex` as derived on the article screen: `-1` with no
timings or at position `0`; otherwise the loop above; past the last word's
end the last index. -/
def currentWordIndex (wordTimings : List WordTiming) (audioPosition : ℤ) : ℤ :=
  if wordTimings.isEmpty || audioPosition == 0 then -1
  else
    match currentWordLoop audioPosition wordTimings 0 with
    | some i => (i : ℤ)
    | none =>
      if 0 < wordTimings.length ∧ (wordTimings.getLastD default).stop < audioPosition then
        (wordTimings.length : ℤ) - 1
      else -1

end Consumemate

namespace Consumemate

/-!
## The Swift playback sequencer (`AudioPlayerService.swift`)

Times are `TimeInterval` seconds, modelled as `ℚ`; word timings are integer
milliseconds.  The `AVAudioPlayer` handle is modelled by its observable
state (intra-chunk position and duration); a chunk's decoded duration is the
boundary value the source reads off a temporary `AVAudioPlayer`, so
`addChunk` receives it as a parameter.
-/

structure SWordTiming where
  word : String
  start : ℤ
  stop : ℤ
  deriving DecidableEq, Repr

structure AudioChunk where
  index : ℕ
  wordTimings : List SWordTiming
  duration : ℚ
  deriving DecidableEq, Repr

instance : Inhabited AudioChunk := ⟨⟨0, [], 0⟩⟩

/-- The observable state of the loaded `AVAudioPlayer`. -/
structure AVPlayer where
  currentTime : ℚ
  duration : ℚ
  deriving DecidableEq, Repr

structure PlayerState where
  chunks : List AudioChunk
  chunkStartTimes : List ℚ
  allWordTimings : List SWordTiming
  duration : ℚ
  currentTime : ℚ
  currentChunkIndex : ℕ
  currentWordIndex : ℤ
  isPlaying : Bool
  isWaitingForNextChunk : Bool
  isLoadingChunks : Bool
  chunksLoaded : ℕ
  totalChunks : ℕ
  player : Option AVPlayer
  deriving DecidableEq, Repr

def initialPlayerState : PlayerState :=
  ⟨[], [], [], 0, 0, 0, -1, false, false, false, 0, 0, none⟩

/-- `stop()`. -/
def stopPlayer (s : PlayerState) : PlayerState :=
  { s with
    isPlaying := false
    isWaitingForNextChunk := false
    currentTime := 0
    currentWordIndex := -1
    currentChunkIndex := 0 }

/-- `cleanup()`. -/
def cleanupPlayer (s : PlayerState) : PlayerState :=
  let s := stopPlayer s
  { s with
    player := none
    chunks := []
    allWordTimings := []
    chunkStartTimes := []
    chunksLoaded := 0
    totalChunks := 0
    duration := 0
    isLoadingChunks := false
    isWaitingForNextChunk := false }

/-- `prepareForChunkedAudio(totalChunks:)`. -/
def prepareForChunkedAudio (s : PlayerState) (totalChunks : ℕ) : PlayerState :=
  let s := cleanupPlayer s
  { s with
    totalChunks := totalChunks
    chunksLoaded := 0
    isLoadingChunks := true
    chunks := []
    allWordTimings := []
    chunkStartTimes := []
    duration := 0 }

/-- `chunks.sort { $0.index < $1.index }` (insertion sort; chunk indices are
distinct so any sort by `<` yields the same list). -/
def insertChunkByIndex (c : AudioChunk) : List AudioChunk → List AudioChunk
  | [] => [c]
  | d :: r => if c.index < d.index then c :: d :: r else d :: insertChunkByIndex c r

def sortChunksByIndex (l : List AudioChunk) : List AudioChunk :=
  l.foldr insertChunkByIndex []

/-- The per-timing adjustment of `recalculateTimings`:
`start + Int(cumulativeTime * 1000)`. -/
def shiftTiming (off : ℤ) (t : SWordTiming) : SWordTiming :=
  ⟨t.word, t.start + off, t.stop + off⟩

/-- The loop of `recalculateTimings` (lines 146–168): walk the chunks in
index order accumulating start offsets, globally-shifted word timings and
the total duration. -/
def recalcAux : List AudioChunk → ℚ → List ℚ × List SWordTiming × ℚ
  | [], cum => ([], [], cum)
  | chunk :: rest, cum =>
    let r := recalcAux rest (cum + chunk.duration)
    (cum :: r.1,
      chunk.wordTimings.map (shiftTiming (swiftTrunc (cum * 1000))) ++ r.2.1,
      r.2.2)

def recalculateTimings (s : PlayerState) : PlayerState :=
  let r := recalcAux (sortChunksByIndex s.chunks) 0
  { s with chunkStartTimes := r.1, allWordTimings := r.2.1, duration := r.2.2 }

/-- `updateCurrentWord()` (lines 366–377): first timing whose half-open
interval contains the current global position, in milliseconds; no match
leaves the index unchanged. -/
def swiftWordLoop (currentMs : ℤ) : List SWordTiming → ℕ → Option ℕ
  | [], _ => none
  | t :: rest, i =>
    if t.start ≤ currentMs ∧ currentMs < t.stop then some i
    else swiftWordLoop currentMs rest (i + 1)

def updateCurrentWord (s : PlayerState) : PlayerState :=
  let currentMs := swiftTrunc (s.currentTime * 1000)
  match swiftWordLoop currentMs s.allWordTimings 0 with
  | some i => { s with currentWordIndex := (i : ℤ) }
  | none => s

/-- `loadChunkIntoPlayer(_:)` (lines 289–311): guard on the index, replace
the player with a fresh one for that chunk. -/
def loadChunkIntoPlayer (s : PlayerState) (chunkIndex : ℕ) : PlayerState :=
  if chunkIndex < s.chunks.length then
    let chunk := s.chunks.getD chunkIndex default
    { s with player := some ⟨0, chunk.duration⟩, currentChunkIndex := chunkIndex }
  else s

/-- `advanceToNextChunk()` (lines 313–333). -/
def advanceToNextChunk (s : PlayerState) : PlayerState :=
  let nextIndex := s.currentChunkIndex + 1
  if nextIndex < s.chunks.length then loadChunkIntoPlayer s nextIndex
  else if nextIndex < s.totalChunks then { s with isWaitingForNextChunk := true }
  else { s with isPlaying := false, isWaitingForNextChunk := false }

/-- `addChunk(index:base64Data:timings:)` (lines 97–144).  `chunkDuration`
is the duration `AVAudioPlayer` reports for the decoded audio data. -/
def addChunk (s : PlayerState) (index : ℕ) (timings : List SWordTiming)
    (chunkDuration : ℚ) : PlayerState :=
  let chunk : AudioChunk := ⟨index, timings, chunkDuration⟩
  let s := { s with chunks := sortChunksByIndex (s.chunks ++ [chunk]) }
  let s := recalculateTimings s
  let s := { s with chunksLoaded := s.chunks.length }
  let s :=
    if index = 0 ∧ s.player.isNone then
      { s with player := some ⟨0, chunkDuration⟩, currentChunkIndex := 0 }
    else s
  let s :=
    if s.isWaitingForNextChunk ∧ index = s.currentChunkIndex + 1 then
      advanceToNextChunk { s with isWaitingForNextChunk := false }
    else s
  if s.chunksLoaded = s.totalChunks then { s with isLoadingChunks := false } else s

/-- The chunk-locating loop of `seek(to:)` (lines 212–226): enumerate
`chunkStartTimes`, break on `[start, end)` containment, and with no break
fall back to the last chunk when the target sits at or past its end. -/
def seekFindLoop (chunks : List AudioChunk) (targetTime : ℚ) :
    List ℚ → ℕ → ℕ → ℕ
  | [], _, acc => acc
  | startTime :: rest, index, acc =>
    if index < chunks.length then
      let endTime := startTime + (chunks.getD index default).duration
      if targetTime ≥ startTime ∧ targetTime < endTime then index
      else if targetTime ≥ endTime ∧ index = chunks.length - 1 then
        seekFindLoop chunks targetTime rest (index + 1) index
      else seekFindLoop chunks targetTime rest (index + 1) acc
    else seekFindLoop chunks targetTime rest (index + 1) acc

/-- `seek(to:)` (lines 208–241): clamp, locate the chunk, switch the loaded
chunk if needed, position the engine inside it, publish the global time and
refresh the highlighted word. -/
def seek (s : PlayerState) (time : ℚ) : PlayerState :=
  let targetTime := max 0 (min time s.duration)
  let targetChunkIndex := seekFindLoop s.chunks targetTime s.chunkStartTimes 0 0
  let s :=
    if targetChunkIndex ≠ s.currentChunkIndex ∧ targetChunkIndex < s.chunks.length then
      loadChunkIntoPlayer s targetChunkIndex
    else s
  let s :=
    match s.player with
    | some pl =>
      if s.currentChunkIndex < s.chunkStartTimes.length then
        let chunkStartTime := s.chunkStartTimes.getD s.currentChunkIndex 0
        let timeInChunk := targetTime - chunkStartTime
        { s with player := some ⟨max 0 (min timeInChunk pl.duration), pl.duration⟩ }
      else s
    | none => s
  let s := { s with currentTime := targetTime }
  updateCurrentWord s

end Consumemate

namespace Consumemate

/-!
## Auxiliary definitions used by the statements of the properties
-/

/-- `/\s+/g → ' '` — the whitespace collapse used by the lossless
reconstruction property (§8 of the spec):
`replace(/\s+/g, ' ')`. -/
def tmWsRun (_ : Option Char) (s : List Char) : Option (ℕ × List Char) :=
  match s with
  | c :: rest =>
      if isWS c then some (1 + (rest.takeWhile isWS).length, [' ']) else none
  | [] => none

/-- `chunks.join(' ')`. -/
def joinSp (chunks : List (List Char)) : List Char :=
  List.intercalate [' '] chunks

/-- `s.replace(/\s+/g, ' ').trim()` — the normal form both sides of the
lossless-reconstruction equation are taken to. -/
def collapseWsTrim (s : List Char) : List Char :=
  jsTrim (applyRepl tmWsRun s)

/-- Drop trailing whitespace only (the second half of `jsTrim`). -/
def trimRight (l : List Char) : List Char :=
  (l.reverse.dropWhile isWS).reverse

/-- Does the split loop place every chunk boundary at whitespace?  Mirrors
the recursion of `splitIntoChunksFuel`, checking at each iteration that the
character just before or just after the split point is whitespace (the
sentence/newline/space branches always satisfy this; only the hard split can
violate it). -/
def splitOkFuel (maxChars : ℕ) : ℕ → List Char → Bool
  | _, [] => true
  | 0, _ => false
  | fuel + 1, remaining =>
    if remaining.length ≤ maxChars then true
    else
      let searchText := remaining.take maxChars
      let splitPoint := (chooseSplitPoint maxChars searchText).toNat
      let wsBefore :=
        match (remaining.take splitPoint).getLast? with
        | some c => isWS c
        | none => true
      let wsAfter :=
        match (remaining.drop splitPoint).head? with
        | some c => isWS c
        | none => true
      (wsBefore || wsAfter) && splitOkFuel maxChars fuel (jsTrim (remaining.drop splitPoint))

def splitBoundariesOk (maxChars : ℕ) (text : List Char) : Bool :=
  splitOkFuel maxChars (text.length + 1) text

/-- Case-insensitive occurrence of `www.` (the trigger of `/www\./gi`). -/
def hasWwwDot : List Char → Bool
  | [] => false
  | c :: cs =>
    (match c :: cs with
     | a :: b :: c' :: '.' :: _ => a.toLower == 'w' && b.toLower == 'w' && c'.toLower == 'w'
     | _ => false) || hasWwwDot cs

/-- The head characters that can trigger a markup/URL rewriting pass of
`prepareTextForSpeech` (images/links `!`/`[`, HTML `<`, URLs `:`, headers
`#`, emphasis `*`/`_`, code `` ` ``, strikethrough `~`). -/
def normTriggerChars : List Char :=
  ['!', '<', '[', ':', '#', '*', '_', '`', '~']

/-- Well-formed provider alignment starting no earlier than `pe`: times are
chained (`pe ≤ start ≤ end` and each end bounds the next start). -/
def alignChain (pe : ℚ) : List (Char × ℚ × ℚ) → Bool
  | [] => true
  | (_, s, e) :: rest => decide (pe ≤ s) && decide (s ≤ e) && alignChain e rest

/-- Total duration of a chunk list (seconds). -/
def sumDur (l : List AudioChunk) : ℚ :=
  (l.map (·.duration)).sum

end Consumemate

namespace Consumemate

/-!
# Proof infrastructure

## Generic facts about the replace engine
-/

theorem replAll_nil (tm : Option Char → List Char → Option (ℕ × List Char))
    (f : ℕ) (prev : Option Char) : replAll tm f prev [] = [] := by
  cases f <;> rfl

theorem replAll_zero (tm : Option Char → List Char → Option (ℕ × List Char))
    (prev : Option Char) (c : Char) (cs : List Char) :
    replAll tm 0 prev (c :: cs) = c :: cs := rfl

theorem replAll_cons_none {tm : Option Char → List Char → Option (ℕ × List Char)}
    {prev : Option Char} {c : Char} {cs : List Char} (f : ℕ)
    (h : tm prev (c :: cs) = none) :
    replAll tm (f + 1) prev (c :: cs) = c :: replAll tm f (some c) cs := by
  simp [replAll, h]

theorem replAll_cons_some {tm : Option Char → List Char → Option (ℕ × List Char)}
    {prev : Option Char} {c : Char} {cs : List Char} {k : ℕ} {r : List Char} (f : ℕ)
    (h : tm prev (c :: cs) = some (k, r)) :
    replAll tm (f + 1) prev (c :: cs) =
      r ++ replAll tm f ((c :: cs).take (max k 1)).getLast? ((c :: cs).drop (max k 1)) := by
  simp [replAll, h]

/-- The engine is the identity when the matcher rejects every suffix. -/
theorem replAll_eq_self {tm : Option Char → List Char → Option (ℕ × List Char)}
    {s₀ : List Char} (h : ∀ prev s, s <:+ s₀ → tm prev s = none) :
    ∀ (f : ℕ) (prev : Option Char) (s : List Char), s <:+ s₀ → replAll tm f prev s = s := by
  intro f prev s hs
  induction s generalizing prev f with
  | nil => exact replAll_nil tm f prev
  | cons c cs ih =>
    cases f with
    | zero => rfl
    | succ f =>
      rw [replAll_cons_none f (h prev _ hs)]
      rw [ih f (some c) ((List.suffix_cons c cs).trans hs)]

theorem applyRepl_eq_self {tm : Option Char → List Char → Option (ℕ × List Char)}
    {s : List Char} (h : ∀ prev s', s' <:+ s → tm prev s' = none) :
    applyRepl tm s = s :=
  replAll_eq_self h s.length none s List.suffix_rfl

/-- The fuel does not matter once it covers the input length. -/
theorem replAll_fuel_congr (tm : Option Char → List Char → Option (ℕ × List Char)) :
    ∀ (n : ℕ) (s : List Char) (f₁ f₂ : ℕ) (prev : Option Char),
      s.length ≤ n → s.length ≤ f₁ → s.length ≤ f₂ →
      replAll tm f₁ prev s = replAll tm f₂ prev s := by
  intro n
  induction n with
  | zero =>
    intro s f₁ f₂ prev h1 _ _
    have : s = [] := List.length_eq_zero.mp (Nat.le_zero.mp h1)
    subst this
    rw [replAll_nil, replAll_nil]
  | succ n ih =>
    intro s f₁ f₂ prev hn h1 h2
    cases s with
    | nil => rw [replAll_nil, replAll_nil]
    | cons c cs =>
      simp only [List.length_cons] at hn h1 h2
      cases f₁ with
      | zero => omega
      | succ f₁ =>
        cases f₂ with
        | zero => omega
        | succ f₂ =>
          cases htm : tm prev (c :: cs) with
          | none =>
            rw [replAll_cons_none f₁ htm, replAll_cons_none f₂ htm,
              ih cs f₁ f₂ (some c) (by omega) (by omega) (by omega)]
          | some kr =>
            obtain ⟨k, r⟩ := kr
            rw [replAll_cons_some f₁ htm, replAll_cons_some f₂ htm]
            congr 1
            apply ih
            · simp only [List.length_drop, List.length_cons]
              omega
            · simp only [List.length_drop, List.length_cons]
              omega
            · simp only [List.length_drop, List.length_cons]
              omega

end Consumemate

namespace Consumemate

/-! ## The matchers reject inputs without their trigger characters -/

theorem tmImageInline_none (prev : Option Char) (s : List Char) (h : '!' ∉ s) :
    tmImageInline prev s = none := by
  unfold tmImageInline
  split
  · simp_all
  · rfl

theorem tmImageRef_none (prev : Option Char) (s : List Char) (h : '!' ∉ s) :
    tmImageRef prev s = none := by
  unfold tmImageRef
  split
  · simp_all
  · rfl

theorem tmImageBare_none (prev : Option Char) (s : List Char) (h : '!' ∉ s) :
    tmImageBare prev s = none := by
  unfold tmImageBare
  split
  · simp_all
  · rfl

theorem tmImgTag_none (prev : Option Char) (s : List Char) (h : '<' ∉ s) :
    tmImgTag prev s = none := by
  unfold tmImgTag
  split
  · simp_all
  · rfl

theorem tmLinkInline_none (prev : Option Char) (s : List Char) (h : '[' ∉ s) :
    tmLinkInline prev s = none := by
  unfold tmLinkInline
  split
  · simp_all
  · rfl

theorem tmLinkRef_none (prev : Option Char) (s : List Char) (h : '[' ∉ s) :
    tmLinkRef prev s = none := by
  unfold tmLinkRef
  split
  · simp_all
  · rfl

theorem optS_suffix (rest : List Char) : (optS rest).2 <:+ rest := by
  unfold optS
  rcases rest with _ | ⟨c, r⟩
  · exact List.suffix_rfl
  · dsimp only
    split_ifs
    · exact List.suffix_cons c r
    · exact List.suffix_rfl

theorem tmHttpUrl_none (prev : Option Char) (s : List Char) (h : ':' ∉ s) :
    tmHttpUrl prev s = none := by
  unfold tmHttpUrl
  split
  · rename_i h1 t1 t2 p rest
    split
    · split
      · rename_i sLen rest3 heq
        exfalso
        apply h
        have hs : ':' ∈ (optS rest).2 := by rw [heq]; exact List.mem_cons_self _ _
        have := (optS_suffix rest).subset hs
        simp [this]
      · rfl
    · rfl
  · rfl

theorem tmWwwUrl_none (prev : Option Char) (s : List Char) (h : hasWwwDot s = false) :
    tmWwwUrl prev s = none := by
  unfold tmWwwUrl
  split
  · rename_i w1 w2 w3 rest
    split_ifs with hw
    · exfalso
      have : hasWwwDot (w1 :: w2 :: w3 :: '.' :: rest) = true := by
        unfold hasWwwDot
        simp only [Bool.or_eq_true]
        left
        exact hw
      rw [h] at this
      exact Bool.false_ne_true this
    · rfl
  · rfl

theorem tmHeader_none (prev : Option Char) (s : List Char) (h : '#' ∉ s) :
    tmHeader prev s = none := by
  unfold tmHeader
  split
  · simp_all
  · rfl

theorem tmBold_none (prev : Option Char) (s : List Char) (h : '*' ∉ s) :
    tmBold prev s = none := by
  unfold tmBold
  split
  · simp_all
  · rfl

theorem tmItalic_none (prev : Option Char) (s : List Char) (h : '*' ∉ s) :
    tmItalic prev s = none := by
  unfold tmItalic
  split
  · simp_all
  · rfl

theorem tmBoldU_none (prev : Option Char) (s : List Char) (h : '_' ∉ s) :
    tmBoldU prev s = none := by
  unfold tmBoldU
  split
  · simp_all
  · rfl

theorem tmItalicU_none (prev : Option Char) (s : List Char) (h : '_' ∉ s) :
    tmItalicU prev s = none := by
  unfold tmItalicU
  split
  · simp_all
  · rfl

theorem tmInlineCode_none (prev : Option Char) (s : List Char) (h : '`' ∉ s) :
    tmInlineCode prev s = none := by
  unfold tmInlineCode
  split
  · simp_all
  · rfl

theorem tmCodeBlock_none (prev : Option Char) (s : List Char) (h : '`' ∉ s) :
    tmCodeBlock prev s = none := by
  unfold tmCodeBlock
  split
  · simp_all
  · rfl

theorem tmStrike_none (prev : Option Char) (s : List Char) (h : '~' ∉ s) :
    tmStrike prev s = none := by
  unfold tmStrike
  split
  · simp_all
  · rfl

theorem tmHtmlTag_none (prev : Option Char) (s : List Char) (h : '<' ∉ s) :
    tmHtmlTag prev s = none := by
  unfold tmHtmlTag
  split
  · simp_all
  · rfl

theorem tmHttpUrlB_none (prev : Option Char) (s : List Char) (h : ':' ∉ s) :
    tmHttpUrlB prev s = none := by
  unfold tmHttpUrlB
  dsimp only
  split_ifs
  · split
    · rename_i h1 t1 t2 p rest
      split
      · split
        · rename_i sLen rest3 heq
          exfalso
          apply h
          have hs : ':' ∈ (optS rest).2 := by rw [heq]; exact List.mem_cons_self _ _
          have := (optS_suffix rest).subset hs
          simp [this]
        · rfl
      · rfl
    · rfl
  · rfl

theorem tmTripleNl_none (prev : Option Char) (s : List Char)
    (h : ¬ ['\n', '\n', '\n'] <:+: s) : tmTripleNl prev s = none := by
  unfold tmTripleNl
  split
  · rename_i rest
    exact absurd ⟨[], rest, by simp⟩ h
  · rfl

theorem tmMultiSpace_none (prev : Option Char) (s : List Char)
    (h : ¬ [' ', ' '] <:+: s) : tmMultiSpace prev s = none := by
  unfold tmMultiSpace
  split
  · rename_i rest
    exact absurd ⟨[], rest, by simp⟩ h
  · rfl

theorem tmWsRun_none (prev : Option Char) (c : Char) (cs : List Char)
    (h : isWS c = false) : tmWsRun prev (c :: cs) = none := by
  simp [tmWsRun, h]

theorem tmImageLazy_none (prev : Option Char) (s : List Char) (h : '!' ∉ s) :
    tmImageLazy prev s = none := by
  unfold tmImageLazy
  split
  · simp_all
  · rfl

theorem tmMdChar_none (prev : Option Char) (s : List Char)
    (h : ∀ c ∈ s, c ∉ (['#', '*', '`', '_', '~'] : List Char)) :
    tmMdChar prev s = none := by
  unfold tmMdChar
  split
  · rename_i c cs
    have hc := h c (List.mem_cons_self _ _)
    simp only [List.mem_cons, List.mem_singleton] at hc
    push_neg at hc
    obtain ⟨h1, h2, h3, h4, h5⟩ := hc
    simp [h1, h2, h3, h4, h5]
  · rfl

end Consumemate

namespace Consumemate

/-! ## Trim and suffix helpers -/

theorem jsTrim_eq_self {s : List Char} (hlead : s.dropWhile isWS = s)
    (htrail : s.reverse.dropWhile isWS = s.reverse) : jsTrim s = s := by
  unfold jsTrim
  rw [hlead, htrail, List.reverse_reverse]

theorem hasWwwDot_tail {c : Char} {cs : List Char} (h : hasWwwDot (c :: cs) = false) :
    hasWwwDot cs = false := by
  unfold hasWwwDot at h
  exact (Bool.or_eq_false_iff.mp h).2

theorem hasWwwDot_suffix {s s' : List Char} (hs : s' <:+ s)
    (h : hasWwwDot s = false) : hasWwwDot s' = false := by
  induction s with
  | nil => rw [List.suffix_nil.mp hs]; rfl
  | cons c cs ih =>
    rcases List.suffix_cons_iff.mp hs with h1 | h1
    · rw [h1]; exact h
    · exact ih h1 (hasWwwDot_tail h)

/--
C5 helper: on text with none of the markup/URL trigger characters, no
case-insensitive `www.`, no triple newline, no double space, and no
leading/trailing whitespace, every pass of `prepareTextForSpeech` is the
identity.
-/
theorem prepareTextForSpeech_eq_self (s : List Char)
    (hchars : ∀ c ∈ s, c ∉ normTriggerChars)
    (hwww : hasWwwDot s = false)
    (hnl : ¬ ['\n', '\n', '\n'] <:+: s)
    (hsp : ¬ [' ', ' '] <:+: s)
    (hlead : s.dropWhile isWS = s)
    (htrail : s.reverse.dropWhile isWS = s.reverse) :
    prepareTextForSpeech s = s := by
  have hBang : '!' ∉ s := fun hm => hchars _ hm (by decide)
  have hLt : '<' ∉ s := fun hm => hchars _ hm (by decide)
  have hBr : '[' ∉ s := fun hm => hchars _ hm (by decide)
  have hColon : ':' ∉ s := fun hm => hchars _ hm (by decide)
  have hHash : '#' ∉ s := fun hm => hchars _ hm (by decide)
  have hStar : '*' ∉ s := fun hm => hchars _ hm (by decide)
  have hUnd : '_' ∉ s := fun hm => hchars _ hm (by decide)
  have hTick : '`' ∉ s := fun hm => hchars _ hm (by decide)
  have hTilde : '~' ∉ s := fun hm => hchars _ hm (by decide)
  have h1 : applyRepl tmImageInline s = s :=
    applyRepl_eq_self fun prev s' hs' =>
      tmImageInline_none prev s' fun hm => hBang (hs'.subset hm)
  have h2 : applyRepl tmImageRef s = s :=
    applyRepl_eq_self fun prev s' hs' =>
      tmImageRef_none prev s' fun hm => hBang (hs'.subset hm)
  have h3 : applyRepl tmImageBare s = s :=
    applyRepl_eq_self fun prev s' hs' =>
      tmImageBare_none prev s' fun hm => hBang (hs'.subset hm)
  have h4 : applyRepl tmImgTag s = s :=
    applyRepl_eq_self fun prev s' hs' =>
      tmImgTag_none prev s' fun hm => hLt (hs'.subset hm)
  have h5 : applyRepl tmLinkInline s = s :=
    applyRepl_eq_self fun prev s' hs' =>
      tmLinkInline_none prev s' fun hm => hBr (hs'.subset hm)
  have h6 : applyRepl tmLinkRef s = s :=
    applyRepl_eq_self fun prev s' hs' =>
      tmLinkRef_none prev s' fun hm => hBr (hs'.subset hm)
  have h7 : applyRepl tmHttpUrl s = s :=
    applyRepl_eq_self fun prev s' hs' =>
      tmHttpUrl_none prev s' fun hm => hColon (hs'.subset hm)
  have h8 : applyRepl tmWwwUrl s = s :=
    applyRepl_eq_self fun prev s' hs' =>
      tmWwwUrl_none prev s' (hasWwwDot_suffix hs' hwww)
  have h9 : applyRepl tmHeader s = s :=
    applyRepl_eq_self fun prev s' hs' =>
      tmHeader_none prev s' fun hm => hHash (hs'.subset hm)
  have h10 : applyRepl tmBold s = s :=
    applyRepl_eq_self fun prev s' hs' =>
      tmBold_none prev s' fun hm => hStar (hs'.subset hm)
  have h11 : applyRepl tmItalic s = s :=
    applyRepl_eq_self fun prev s' hs' =>
      tmItalic_none prev s' fun hm => hStar (hs'.subset hm)
  have h12 : applyRepl tmBoldU s = s :=
    applyRepl_eq_self fun prev s' hs' =>
      tmBoldU_none prev s' fun hm => hUnd (hs'.subset hm)
  have h13 : applyRepl tmItalicU s = s :=
    applyRepl_eq_self fun prev s' hs' =>
      tmItalicU_none prev s' fun hm => hUnd (hs'.subset hm)
  have h14 : applyRepl tmInlineCode s = s :=
    applyRepl_eq_self fun prev s' hs' =>
      tmInlineCode_none prev s' fun hm => hTick (hs'.subset hm)
  have h15 : applyRepl tmCodeBlock s = s :=
    applyRepl_eq_self fun prev s' hs' =>
      tmCodeBlock_none prev s' fun hm => hTick (hs'.subset hm)
  have h16 : applyRepl tmStrike s = s :=
    applyRepl_eq_self fun prev s' hs' =>
      tmStrike_none prev s' fun hm => hTilde (hs'.subset hm)
  have h17 : applyRepl tmHtmlTag s = s :=
    applyRepl_eq_self fun prev s' hs' =>
      tmHtmlTag_none prev s' fun hm => hLt (hs'.subset hm)
  have h18 : applyRepl tmHttpUrlB s = s :=
    applyRepl_eq_self fun prev s' hs' =>
      tmHttpUrlB_none prev s' fun hm => hColon (hs'.subset hm)
  have h19 : applyRepl tmTripleNl s = s :=
    applyRepl_eq_self fun prev s' hs' =>
      tmTripleNl_none prev s' fun hi => hnl (hi.trans hs'.isInfix)
  have h20 : applyRepl tmMultiSpace s = s :=
    applyRepl_eq_self fun prev s' hs' =>
      tmMultiSpace_none prev s' fun hi => hsp (hi.trans hs'.isInfix)
  simp only [prepareTextForSpeech]
  rw [h1, h2, h3, h4, h5, h6, h7, h8, h9, h10, h11, h12, h13, h14, h15, h16,
    h17, h18, h19, h20]
  exact jsTrim_eq_self hlead htrail

end Consumemate

namespace Consumemate

theorem hasWwwDot_eq_false_of_no_dot {s : List Char} (h : '.' ∉ s) :
    hasWwwDot s = false := by
  induction s with
  | nil => rfl
  | cons c cs ih =>
    unfold hasWwwDot
    rw [Bool.or_eq_false_iff]
    constructor
    · split
      · rename_i a b c' rest heq
        exfalso
        apply h
        have : '.' ∈ a :: b :: c' :: '.' :: rest := by simp
        rw [← heq] at this
        exact this
      · rfl
    · exact ih fun hm => h (List.mem_cons_of_mem c hm)

theorem dropWhile_ws_eq_self {s : List Char} (h : ∀ c ∈ s, isWS c = false) :
    s.dropWhile isWS = s := by
  cases s with
  | nil => rfl
  | cons c cs => simp [List.dropWhile_cons, h c (List.mem_cons_self _ _)]

theorem jsTrim_eq_self_of_no_ws {s : List Char} (h : ∀ c ∈ s, isWS c = false) :
    jsTrim s = s :=
  jsTrim_eq_self (dropWhile_ws_eq_self h)
    (dropWhile_ws_eq_self fun c hm => h c (List.mem_reverse.mp hm))

/-- A text that already fits yields exactly one chunk. -/
theorem splitIntoChunks_single {maxChars : ℕ} {s : List Char} (hne : s ≠ [])
    (h : s.length ≤ maxChars) : splitIntoChunks maxChars s = [s] := by
  cases s with
  | nil => exact absurd rfl hne
  | cons c cs =>
    unfold splitIntoChunks splitIntoChunksFuel
    simp only [List.length_cons] at h ⊢
    rw [if_pos h]
    simp [List.filter]

/-- C10 helper: `cleanTextForSpeech` of the mobile ElevenLabs provider is
the identity on trigger-free text. -/
theorem cleanTextForSpeech_eq_self (s : List Char)
    (hchars : ∀ c ∈ s, c ∉ normTriggerChars)
    (hnl : ¬ ['\n', '\n', '\n'] <:+: s)
    (hlead : s.dropWhile isWS = s)
    (htrail : s.reverse.dropWhile isWS = s.reverse) :
    cleanTextForSpeech s = s := by
  have hBang : '!' ∉ s := fun hm => hchars _ hm (by decide)
  have hBr : '[' ∉ s := fun hm => hchars _ hm (by decide)
  have h1 : applyRepl tmImageLazy s = s :=
    applyRepl_eq_self fun prev s' hs' =>
      tmImageLazy_none prev s' fun hm => hBang (hs'.subset hm)
  have h2 : applyRepl tmLinkInline s = s :=
    applyRepl_eq_self fun prev s' hs' =>
      tmLinkInline_none prev s' fun hm => hBr (hs'.subset hm)
  have h3 : applyRepl tmMdChar s = s :=
    applyRepl_eq_self fun prev s' hs' =>
      tmMdChar_none prev s' fun c hm hmem => hchars c (hs'.subset hm) (by
        simp only [normTriggerChars, List.mem_cons] at hmem ⊢
        rcases hmem with h | h | h | h | h | h <;> simp [h])
  have h4 : applyRepl tmTripleNl s = s :=
    applyRepl_eq_self fun prev s' hs' =>
      tmTripleNl_none prev s' fun hi => hnl (hi.trans hs'.isInfix)
  simp only [cleanTextForSpeech]
  rw [h1, h2, h3, h4]
  exact jsTrim_eq_self hlead htrail

end Consumemate

namespace Consumemate

/--
**C5** (corrected).  The Text Normalizer `prepareTextForSpeech` is total (a
function on strings) and is a **no-op — hence idempotent — on
already-normalized text**: text containing none of the markup/URL trigger
characters `! < [ : # * _ ` ~`, no case-insensitive `www.`, no run of three
newlines, no double space, and no leading or trailing whitespace.  On
general input it is *not* idempotent (see the counterexample: nested
emphasis markers are stripped one level per pass).
-/
theorem c5_normalizer_idempotent_on_normalized (s : List Char)
    (hchars : ∀ c ∈ s, c ∉ normTriggerChars)
    (hwww : hasWwwDot s = false)
    (hnl : ¬ ['\n', '\n', '\n'] <:+: s)
    (hsp : ¬ [' ', ' '] <:+: s)
    (hlead : s.dropWhile isWS = s)
    (htrail : s.reverse.dropWhile isWS = s.reverse) :
    prepareTextForSpeech s = s ∧
      prepareTextForSpeech (prepareTextForSpeech s) = prepareTextForSpeech s := by
  have hid := prepareTextForSpeech_eq_self s hchars hwww hnl hsp hlead htrail
  exact ⟨hid, by rw [hid]; exact hid⟩

/--
**C5** counterexample: the claim "normalize(normalize(s)) = normalize(s) for
every s" is false at `s = "****x****"`: one pass yields `"*x*"` (the bold
pass strips the inner `**…**`, the italic pass one more level), a second
pass yields `"x"`.
-/
theorem c5_counterexample :
    prepareTextForSpeech (prepareTextForSpeech (("****x****").toList)) ≠
      prepareTextForSpeech (("****x****").toList) := by
  decide

/-- **C5** witness: the idempotence theorem applied to `"hello world"`. -/
theorem c5_witness :
    prepareTextForSpeech (("hello world").toList) = ("hello world").toList ∧
      prepareTextForSpeech (prepareTextForSpeech (("hello world").toList)) =
        prepareTextForSpeech (("hello world").toList) :=
  c5_normalizer_idempotent_on_normalized (("hello world").toList)
    (by decide) (by decide) (by decide) (by decide) (by decide) (by decide)

/--
**C10** (code bug).  The backend `getChunkCount` delegates to the Splitter,
but the mobile `ElevenLabsProvider.getChunkCount` does **not**: it estimates
`Math.ceil(cleanedText.length / 1000) || 1` (its comment claims to "match
backend chunk size (1000 chars)" while the backend constant is 4500), so
the two disagree — e.g. on a 1001-character unbroken text the mobile client
expects 2 chunks while the backend serves exactly 1.
-/
theorem c10_chunk_count_mismatch :
    mobileGetChunkCount (List.replicate 1001 'a') = 2 ∧
      getChunkCount (List.replicate 1001 'a') = 1 := by
  have hchars : ∀ c ∈ List.replicate 1001 'a', c ∉ normTriggerChars := by
    intro c hm
    rw [List.eq_of_mem_replicate hm]
    decide
  have hnows : ∀ c ∈ List.replicate 1001 'a', isWS c = false := by
    intro c hm
    rw [List.eq_of_mem_replicate hm]
    rfl
  have hnl : ¬ ['\n', '\n', '\n'] <:+: List.replicate 1001 'a' := by
    intro hi
    have hmem : ('\n') ∈ List.replicate 1001 'a' :=
      hi.subset (List.mem_cons_self _ _)
    have := List.eq_of_mem_replicate hmem
    simp at this
  have hsp : ¬ [' ', ' '] <:+: List.replicate 1001 'a' := by
    intro hi
    have hmem : (' ') ∈ List.replicate 1001 'a' :=
      hi.subset (List.mem_cons_self _ _)
    have := List.eq_of_mem_replicate hmem
    simp at this
  have hwww : hasWwwDot (List.replicate 1001 'a') = false :=
    hasWwwDot_eq_false_of_no_dot fun hm => by
      have := List.eq_of_mem_replicate hm
      simp at this
  have hlead := dropWhile_ws_eq_self hnows
  have htrail := dropWhile_ws_eq_self
    (fun c hm => hnows c (List.mem_reverse.mp hm))
  constructor
  · unfold mobileGetChunkCount
    rw [cleanTextForSpeech_eq_self _ hchars hnl hlead htrail]
    norm_num
  · unfold getChunkCount
    rw [prepareTextForSpeech_eq_self _ hchars hwww hnl hsp hlead htrail]
    rw [splitIntoChunks_single (by simp) (by simp [MAX_CHUNK_CHARS])]
    rfl

end Consumemate

namespace Consumemate

/-! ## Cache lemmas (C1, C9) -/

theorem cacheGet_cachePut (cache : ChunkCache) (k : CacheKey) (v : CachedChunk) :
    cacheGet (cachePut cache k v) k = some v := by
  simp [cacheGet, cachePut, List.find?]

/--
**C1** (confirmed; the cache itself is modelled from the spec, its
implementation living in the absent `articleService`).  Cache idempotence of
`generateAudioChunk`: (1) whenever the `(articleId, voiceId, chunkIndex)`
key is cached, the call returns the cached `ChunkAudio` and leaves both the
cache and the provider script untouched — the synthesize provider is not
invoked; (2) with an empty cache entry for the key and a provider stub able
to serve exactly one call, the first call succeeds and populates the cache,
and the second identical call also succeeds (served from the cache, the
exhausted provider script untouched).
-/
theorem c1_cache_idempotence :
    (∀ (articleId : ℕ) (text : List Char) (voiceId : String) (chunkIndex : ℕ)
        (cache : ChunkCache) (p : ProviderScript) (entry : CachedChunk),
        cacheGet cache (articleId, voiceId, chunkIndex) = some entry →
        generateAudioChunk articleId text voiceId chunkIndex cache p =
          (.ok ⟨entry.audioData, entry.wordTimings, [], chunkIndex,
            getChunkCount text, true⟩, cache, p)) ∧
    (∀ (articleId : ℕ) (text : List Char) (voiceId : String) (chunkIndex : ℕ)
        (cache : ChunkCache) (resp : SynthResp),
        cacheGet cache (articleId, voiceId, chunkIndex) = none →
        chunkIndex <
          (splitIntoChunks MAX_CHUNK_CHARS (prepareTextForSpeech text)).length →
        ∀ wt, wt = (match resp.alignment with
                    | some al => alignmentToWordTimings al
                    | none => []) →
        generateAudioChunk articleId text voiceId chunkIndex cache
            [.ok resp] =
          (.ok ⟨resp.audio, wt,
              (splitIntoChunks MAX_CHUNK_CHARS (prepareTextForSpeech text)).getD
                chunkIndex [],
              chunkIndex,
              (splitIntoChunks MAX_CHUNK_CHARS (prepareTextForSpeech text)).length,
              false⟩,
            cachePut cache (articleId, voiceId, chunkIndex) ⟨resp.audio, wt⟩, []) ∧
        generateAudioChunk articleId text voiceId chunkIndex
            (cachePut cache (articleId, voiceId, chunkIndex) ⟨resp.audio, wt⟩) [] =
          (.ok ⟨resp.audio, wt, [], chunkIndex, getChunkCount text, true⟩,
            cachePut cache (articleId, voiceId, chunkIndex) ⟨resp.audio, wt⟩, [])) := by
  constructor
  · intro articleId text voiceId chunkIndex cache p entry hhit
    unfold generateAudioChunk
    rw [hhit]
  · intro articleId text voiceId chunkIndex cache resp hmiss hvalid wt hwt
    constructor
    · unfold generateAudioChunk
      rw [hmiss]
      unfold generateChunk
      simp only
      rw [if_neg (by omega)]
      unfold convertWithTimestamps providerCall
      simp only [hwt]
    · unfold generateAudioChunk
      rw [cacheGet_cachePut]
  
/--
**C1** witness: a provider stub with exactly one successful response serves
two consecutive `generateAudioChunk` calls for the same key — the first via
synthesis, the second via the cache.
-/
theorem c1_witness :
    cacheGet [] (1, ("v" : String), 0) = none ∧
    0 < (splitIntoChunks MAX_CHUNK_CHARS (prepareTextForSpeech (("hi").toList))).length ∧
    generateAudioChunk 1 (("hi").toList) "v" 0 []
        [.ok ⟨[7, 7], none⟩] =
      (.ok ⟨[7, 7], [], ("hi").toList, 0, 1, false⟩,
        cachePut [] (1, "v", 0) ⟨[7, 7], []⟩, []) ∧
    generateAudioChunk 1 (("hi").toList) "v" 0
        (cachePut [] (1, "v", 0) ⟨[7, 7], []⟩) [] =
      (.ok ⟨[7, 7], [], [], 0, 1, true⟩,
        cachePut [] (1, "v", 0) ⟨[7, 7], []⟩, []) := by
  refine ⟨rfl, by decide, ?_⟩
  have h := c1_cache_idempotence.2 1 (("hi").toList) "v" 0 [] ⟨[7, 7], none⟩
    rfl (by decide) [] rfl
  obtain ⟨h1, h2⟩ := h
  constructor
  · rw [h1]
    rfl
  · rw [h2]
    rfl

end Consumemate

namespace Consumemate

/--
**C9** (confirmed; the cache is modelled from the spec, its implementation
living in the absent `articleService`).  When the provider fails with a
quota error while generating chunk `k` (both the timestamped call and the
audio-only fallback call fail), `generateAudioChunk` rejects with an error
that is identifiably `quotaExceeded` — not a generic failure — caches
nothing for chunk `k`, and every previously cached chunk remains cached and
retrievable.
-/
theorem c9_quota_error_preserved (articleId : ℕ) (text : List Char)
    (voiceId : String) (k : ℕ) (cache : ChunkCache)
    (hmiss : cacheGet cache (articleId, voiceId, k) = none)
    (hvalid : k <
      (splitIntoChunks MAX_CHUNK_CHARS (prepareTextForSpeech text)).length) :
    generateAudioChunk articleId text voiceId k cache
        [.error .quotaExceeded, .error .quotaExceeded] =
      (.error (.synth .quotaExceeded), cache, []) ∧
    (∀ (key : CacheKey) (e : CachedChunk),
      cacheGet cache key = some e →
      cacheGet (generateAudioChunk articleId text voiceId k cache
          [.error .quotaExceeded, .error .quotaExceeded]).2.1 key = some e) ∧
    TtsError.synth .quotaExceeded ≠ TtsError.synth .unknown := by
  have hmain : generateAudioChunk articleId text voiceId k cache
      [.error .quotaExceeded, .error .quotaExceeded] =
      (.error (.synth .quotaExceeded), cache, []) := by
    unfold generateAudioChunk
    rw [hmiss]
    unfold generateChunk
    simp only
    rw [if_neg (by omega)]
    unfold convertWithTimestamps convertChunkToAudio providerCall
    simp only
  refine ⟨hmain, ?_, by decide⟩
  intro key e hj
  rw [hmain]
  exact hj

/-- **C9** witness: the theorem at a concrete input — an uncached chunk 0
of one article, with another article's chunk already cached, and the
provider stub failing with `quotaExceeded`. -/
theorem c9_witness :
    generateAudioChunk 1 (("one two").toList) "v" 0
        [((2, ("v" : String), 0), ⟨[5], []⟩)]
        [.error .quotaExceeded, .error .quotaExceeded] =
      (.error (.synth .quotaExceeded), [((2, "v", 0), ⟨[5], []⟩)], []) ∧
    cacheGet (generateAudioChunk 1 (("one two").toList) "v" 0
        [((2, ("v" : String), 0), ⟨[5], []⟩)]
        [.error .quotaExceeded, .error .quotaExceeded]).2.1 (2, "v", 0) =
      some ⟨[5], []⟩ := by
  have h := c9_quota_error_preserved 1 (("one two").toList) "v" 0
    [((2, "v", 0), ⟨[5], []⟩)] (by rfl) (by decide)
  exact ⟨h.1, h.2.1 (2, "v", 0) ⟨[5], []⟩ rfl⟩

end Consumemate

namespace Consumemate

/-! ## Swift sequencer lemmas (C2, C7) -/

theorem swiftTrunc_intCast (m : ℤ) : swiftTrunc (m : ℚ) = m := by
  unfold swiftTrunc
  split_ifs
  · exact Int.floor_intCast m
  · rw [← Int.cast_neg, Int.floor_intCast, neg_neg]

theorem shiftTiming_zero (t : SWordTiming) : shiftTiming 0 t = t := by
  cases t
  simp [shiftTiming]

theorem map_shiftTiming_zero (l : List SWordTiming) :
    l.map (shiftTiming 0) = l := by
  have h : shiftTiming 0 = id := funext shiftTiming_zero
  rw [h, List.map_id]

/--
**C2** (confirmed).  Global offset correctness of the Swift sequencer: after
`prepareForChunkedAudio(totalChunks: 2)`, `addChunk(0, …)` and
`addChunk(1, …)`, the exposed `allWordTimings` are chunk 0's timings
unchanged followed by chunk 1's timings each shifted by exactly chunk 0's
duration (expressed in whole milliseconds, `m = 1000·d0`, the granularity of
`WordTiming`), and the total known `duration` is exactly the sum of the two
chunk durations.
-/
theorem c2_global_offsets (ts0 ts1 : List SWordTiming) (d0 d1 : ℚ) (m : ℤ)
    (hm : (m : ℚ) = 1000 * d0) :
    (addChunk (addChunk (prepareForChunkedAudio initialPlayerState 2) 0 ts0 d0)
        1 ts1 d1).allWordTimings = ts0 ++ ts1.map (shiftTiming m) ∧
    (addChunk (addChunk (prepareForChunkedAudio initialPlayerState 2) 0 ts0 d0)
        1 ts1 d1).duration = d0 + d1 := by
  have htr : swiftTrunc (d0 * 1000) = m := by
    have hq : d0 * 1000 = (m : ℚ) := by rw [hm]; ring
    rw [hq, swiftTrunc_intCast]
  have htr0 : swiftTrunc (0 : ℚ) = 0 := by
    norm_num [swiftTrunc]
  constructor
  · simp [addChunk, prepareForChunkedAudio, cleanupPlayer, stopPlayer,
      initialPlayerState, sortChunksByIndex, insertChunkByIndex,
      recalculateTimings, recalcAux, advanceToNextChunk, loadChunkIntoPlayer,
      htr, htr0, map_shiftTiming_zero]
  · simp [addChunk, prepareForChunkedAudio, cleanupPlayer, stopPlayer,
      initialPlayerState, sortChunksByIndex, insertChunkByIndex,
      recalculateTimings, recalcAux, advanceToNextChunk, loadChunkIntoPlayer]

/-- **C2** witness: two chunks of 10 s and 8 s; chunk 1's word timings are
shifted by exactly 10000 ms and the total duration is 18 s. -/
theorem c2_witness :
    ((10000 : ℤ) : ℚ) = 1000 * (10 : ℚ) ∧
    (addChunk (addChunk (prepareForChunkedAudio initialPlayerState 2) 0
        [⟨"a", 0, 500⟩] 10) 1 [⟨"b", 100, 400⟩] 8).allWordTimings =
      [⟨"a", 0, 500⟩] ++ [⟨"b", 100, 400⟩].map (shiftTiming 10000) ∧
    (addChunk (addChunk (prepareForChunkedAudio initialPlayerState 2) 0
        [⟨"a", 0, 500⟩] 10) 1 [⟨"b", 100, 400⟩] 8).duration = 10 + 8 := by
  have h := c2_global_offsets [⟨"a", 0, 500⟩] [⟨"b", 100, 400⟩] 10 8 10000
    (by norm_num)
  exact ⟨by norm_num, h.1, h.2⟩

end Consumemate

namespace Consumemate

/-! ## Split-point bounds (C3) -/

theorem lastIndexOfAux_bound (pat : List Char) :
    ∀ (s : List Char) (i : ℕ) (best : ℤ),
      (best + pat.length ≤ (i : ℤ) + s.length ∨ best = -1) →
      (lastIndexOfAux pat s i best + pat.length ≤ (i : ℤ) + s.length ∨
        lastIndexOfAux pat s i best = -1) := by
  intro s
  induction s with
  | nil => intro i best h; exact h
  | cons c cs ih =>
    intro i best h
    rw [lastIndexOfAux]
    split_ifs with hp
    · have hlen : pat.length ≤ (c :: cs).length :=
        (List.isPrefixOf_iff_prefix.mp hp).length_le
      simp only [List.length_cons] at hlen
      have hrec := ih (i + 1) (i : ℤ) (by left; push_cast; omega)
      rcases hrec with hr | hr
      · left
        simp only [List.length_cons]
        push_cast at hr ⊢
        omega
      · right; exact hr
    · have hrec := ih (i + 1) best (by
        rcases h with h | h
        · left
          simp only [List.length_cons] at h
          push_cast at h ⊢
          omega
        · right; exact h)
      rcases hrec with hr | hr
      · left
        simp only [List.length_cons]
        push_cast at hr ⊢
        omega
      · right; exact hr

theorem lastIndexOf_bound (pat s : List Char) :
    lastIndexOf pat s + pat.length ≤ (s.length : ℤ) ∨ lastIndexOf pat s = -1 := by
  have h := lastIndexOfAux_bound pat s 0 (-1) (Or.inr rfl)
  simpa [lastIndexOf] using h

theorem lastIndexOf_nonneg_bound {pat s : List Char} {q : ℚ}
    (hq : 0 ≤ q) (h : (lastIndexOf pat s : ℚ) > q) :
    lastIndexOf pat s + pat.length ≤ (s.length : ℤ) := by
  rcases lastIndexOf_bound pat s with hb | hb
  · exact hb
  · rw [hb] at h
    exfalso
    have : ((-1 : ℤ) : ℚ) > 0 := lt_of_le_of_lt hq h
    norm_num at this

theorem bestSentenceSplit_le (maxChars : ℕ) (st : List Char) :
    bestSentenceSplit maxChars st ≤ (st.length : ℤ) - 1 := by
  unfold bestSentenceSplit
  have hgen : ∀ (l : List (List Char)), (∀ e ∈ l, e.length = 2) →
      ∀ acc : ℤ, acc ≤ (st.length : ℤ) - 1 →
      (l.foldl (fun bestSplit ender =>
        let lastIndex := lastIndexOf ender st
        if lastIndex > bestSplit ∧ (lastIndex : ℚ) > (maxChars : ℚ) * (1/2) then
          lastIndex + (ender.length : ℤ) - 1
        else bestSplit) acc) ≤ (st.length : ℤ) - 1 := by
    intro l
    induction l with
    | nil => intro _ acc hacc; exact hacc
    | cons e es ih =>
      intro hlen acc hacc
      rw [List.foldl_cons]
      apply ih (fun x hx => hlen x (List.mem_cons_of_mem e hx))
      dsimp only
      split_ifs with hcond
      · have hocc := lastIndexOf_nonneg_bound
          (by positivity : (0 : ℚ) ≤ (maxChars : ℚ) * (1/2)) hcond.2
        rw [hlen e (List.mem_cons_self e es)] at hocc ⊢
        push_cast at hocc ⊢
        omega
      · exact hacc
  refine hgen sentenceEnders (by decide) (-1) ?_
  have : (0 : ℤ) ≤ (st.length : ℤ) := Int.ofNat_nonneg _
  omega

theorem chooseSplitPoint_le {maxChars : ℕ} {st : List Char}
    (hst : st.length ≤ maxChars) : chooseSplitPoint maxChars st ≤ (maxChars : ℤ) := by
  unfold chooseSplitPoint
  dsimp only
  split_ifs with h1 h2 h3
  · have := bestSentenceSplit_le maxChars st
    have hcast : (st.length : ℤ) ≤ (maxChars : ℤ) := by exact_mod_cast hst
    omega
  · have hocc := lastIndexOf_nonneg_bound
      (by positivity : (0 : ℚ) ≤ (maxChars : ℚ) * (1/2)) h2
    simp only [List.length_singleton] at hocc
    have hcast : (st.length : ℤ) ≤ (maxChars : ℤ) := by exact_mod_cast hst
    omega
  · have hocc := lastIndexOf_nonneg_bound
      (by positivity : (0 : ℚ) ≤ (maxChars : ℚ) * (1/2)) h3
    simp only [List.length_singleton] at hocc
    have hcast : (st.length : ℤ) ≤ (maxChars : ℤ) := by exact_mod_cast hst
    omega
  · exact le_refl _

theorem length_jsTrim_le (l : List Char) : (jsTrim l).length ≤ l.length := by
  unfold jsTrim
  calc ((l.dropWhile isWS).reverse.dropWhile isWS).reverse.length
      = ((l.dropWhile isWS).reverse.dropWhile isWS).length := List.length_reverse _
    _ ≤ (l.dropWhile isWS).reverse.length :=
        (List.dropWhile_suffix isWS).length_le
    _ = (l.dropWhile isWS).length := List.length_reverse _
    _ ≤ l.length := (List.dropWhile_suffix isWS).length_le

/-- Every chunk the fuelled split loop emits obeys the bound. -/
theorem splitIntoChunksFuel_length_le (maxChars : ℕ) :
    ∀ (f : ℕ) (s c : List Char), c ∈ splitIntoChunksFuel maxChars f s →
      c.length ≤ maxChars := by
  intro f
  induction f with
  | zero =>
    intro s c hc
    cases s <;> simp [splitIntoChunksFuel] at hc
  | succ f ih =>
    intro s c hc
    cases s with
    | nil => simp [splitIntoChunksFuel] at hc
    | cons a as =>
      have hunf : splitIntoChunksFuel maxChars (f + 1) (a :: as) =
          if (a :: as).length ≤ maxChars then [a :: as]
          else
            jsTrim ((a :: as).take
              ((chooseSplitPoint maxChars ((a :: as).take maxChars)).toNat)) ::
              splitIntoChunksFuel maxChars f
                (jsTrim ((a :: as).drop
                  ((chooseSplitPoint maxChars ((a :: as).take maxChars)).toNat))) := rfl
      rw [hunf] at hc
      split_ifs at hc with hle
      · rcases List.mem_singleton.mp hc with rfl
        exact hle
      · rcases List.mem_cons.mp hc with rfl | hmem
        · calc (jsTrim ((a :: as).take
                ((chooseSplitPoint maxChars ((a :: as).take maxChars)).toNat))).length
              ≤ ((a :: as).take
                ((chooseSplitPoint maxChars ((a :: as).take maxChars)).toNat)).length :=
                length_jsTrim_le _
            _ ≤ (chooseSplitPoint maxChars ((a :: as).take maxChars)).toNat :=
                List.length_take_le _ _
            _ ≤ maxChars := by
                have h := chooseSplitPoint_le
                  (show ((a :: as).take maxChars).length ≤ maxChars from
                    List.length_take_le _ _)
                omega
        · exact ih _ c hmem

/--
**C3** (confirmed).  Chunk size bound: every chunk `splitIntoChunks`
produces (with the backend's `MAX_CHUNK_CHARS = 4500`) has length at most
`MAX_CHUNK_CHARS`, including when no sentence ender, newline, or space past
the half threshold exists and the hard split at `maxChars` fires.
-/
theorem c3_chunk_size_bound (text c : List Char)
    (hc : c ∈ splitIntoChunks MAX_CHUNK_CHARS text) :
    c.length ≤ MAX_CHUNK_CHARS := by
  have hmem := List.mem_of_mem_filter hc
  exact splitIntoChunksFuel_length_le MAX_CHUNK_CHARS (text.length + 1) text c hmem

/-- **C3** witness: a no-split-point text longer than the cap is hard-split
into bounded chunks; the bound theorem applied to its first chunk. -/
theorem c3_witness :
    (("hello world").toList ∈ splitIntoChunks MAX_CHUNK_CHARS (("hello world").toList)) ∧
    (("hello world").toList).length ≤ MAX_CHUNK_CHARS :=
  ⟨by decide, c3_chunk_size_bound (("hello world").toList) (("hello world").toList)
    (by decide)⟩

end Consumemate

namespace Consumemate

/-! ## Prefix-sum facts for the sequencer timeline (C7) -/

theorem sumDur_nil : sumDur [] = 0 := rfl

theorem sumDur_cons (c : AudioChunk) (l : List AudioChunk) :
    sumDur (c :: l) = c.duration + sumDur l := by
  simp [sumDur]

theorem sumDur_append (l₁ l₂ : List AudioChunk) :
    sumDur (l₁ ++ l₂) = sumDur l₁ + sumDur l₂ := by
  simp [sumDur]

theorem sumDur_nonneg {l : List AudioChunk} (h : ∀ c ∈ l, 0 < c.duration) :
    0 ≤ sumDur l := by
  induction l with
  | nil => simp [sumDur_nil]
  | cons c cs ih =>
    rw [sumDur_cons]
    have h1 := h c (List.mem_cons_self _ _)
    have h2 := ih fun x hx => h x (List.mem_cons_of_mem c hx)
    linarith

theorem sumDur_take_mono {l : List AudioChunk} (h : ∀ c ∈ l, 0 < c.duration)
    {i j : ℕ} (hij : i ≤ j) : sumDur (l.take i) ≤ sumDur (l.take j) := by
  have hform : l.take j = l.take i ++ (l.drop i).take (j - i) := by
    rw [← List.take_add]
    congr 1
    omega
  rw [hform, sumDur_append]
  have hnn : 0 ≤ sumDur ((l.drop i).take (j - i)) := by
    apply sumDur_nonneg
    intro c hc
    exact h c ((List.take_subset _ _).trans (List.drop_subset _ _) hc)
  linarith

theorem getD_append_length (pre : List AudioChunk) (c : AudioChunk)
    (rest : List AudioChunk) (d : AudioChunk) :
    (pre ++ c :: rest).getD pre.length d = c := by
  induction pre with
  | nil => rfl
  | cons p ps ih => simpa using ih

theorem recalcAux_fst_length (l : List AudioChunk) :
    ∀ cum : ℚ, ((recalcAux l cum).1).length = l.length := by
  induction l with
  | nil => intro cum; rfl
  | cons c cs ih => intro cum; simp [recalcAux, ih]

theorem recalcAux_fst_getD (l : List AudioChunk) :
    ∀ (cum : ℚ) (i : ℕ), i < l.length →
      ((recalcAux l cum).1).getD i 0 = cum + sumDur (l.take i) := by
  induction l with
  | nil => intro cum i hi; simp at hi
  | cons c cs ih =>
    intro cum i hi
    cases i with
    | zero => simp [recalcAux, sumDur_nil]
    | succ i =>
      have hi' : i < cs.length := by simpa using hi
      simp only [recalcAux, List.take_succ_cons, List.getD_cons_succ]
      rw [ih (cum + c.duration) i hi', sumDur_cons]
      ring

theorem recalcAux_snd_snd (l : List AudioChunk) :
    ∀ cum : ℚ, (recalcAux l cum).2.2 = cum + sumDur l := by
  induction l with
  | nil => intro cum; simp [recalcAux, sumDur_nil]
  | cons c cs ih =>
    intro cum
    simp only [recalcAux]
    rw [ih (cum + c.duration), sumDur_cons]
    ring

end Consumemate

namespace Consumemate

theorem take_append_cons_succ (pre : List AudioChunk) (c : AudioChunk)
    (suf : List AudioChunk) :
    (pre ++ c :: suf).take (pre.length + 1) = pre ++ [c] := by
  have h1 : pre ++ c :: suf = (pre ++ [c]) ++ suf := by simp
  have h2 : pre.length + 1 = (pre ++ [c]).length := by simp
  rw [h1, h2, List.take_left]

theorem take_append_length (pre : List AudioChunk) (suf : List AudioChunk) :
    (pre ++ suf).take pre.length = pre := List.take_left pre suf

/-- The chunk-locating loop of `seek` finds the chunk whose
`[start, start+duration)` interval contains the target. -/
theorem seekFindLoop_mem (t : ℚ) :
    ∀ (suf pre : List AudioChunk) (acc : ℕ),
      (∀ c ∈ pre ++ suf, 0 < c.duration) →
      ∀ i, pre.length ≤ i → i < (pre ++ suf).length →
        sumDur ((pre ++ suf).take i) ≤ t →
        t < sumDur ((pre ++ suf).take i) + ((pre ++ suf).getD i default).duration →
        seekFindLoop (pre ++ suf) t ((recalcAux suf (sumDur pre)).1) pre.length acc = i := by
  intro suf
  induction suf with
  | nil =>
    intro pre acc hpos i hi1 hi2 _ _
    simp only [List.append_nil] at hi2
    omega
  | cons c suf' ih =>
    intro pre acc hpos i hi1 hi2 ht1 ht2
    have hget : (pre ++ c :: suf').getD pre.length default = c :=
      getD_append_length pre c suf' default
    have hlenlt : pre.length < (pre ++ c :: suf').length := by simp
    have htS : sumDur pre ≤ t := by
      have := sumDur_take_mono hpos hi1
      rw [take_append_length] at this
      exact le_trans this ht1
    have hstarts : (recalcAux (c :: suf') (sumDur pre)).1 =
        sumDur pre :: (recalcAux suf' (sumDur pre + c.duration)).1 := rfl
    rw [hstarts, seekFindLoop]
    rw [if_pos hlenlt]
    simp only [hget]
    by_cases hcont : t < sumDur pre + c.duration
    · rw [if_pos ⟨htS, hcont⟩]
      by_contra hne
      have hgt : pre.length + 1 ≤ i := by omega
      have hmono := sumDur_take_mono hpos hgt
      rw [take_append_cons_succ, sumDur_append] at hmono
      have : sumDur pre + sumDur [c] ≤ t := le_trans hmono ht1
      rw [sumDur_cons, sumDur_nil] at this
      linarith
    · push_neg at hcont
      rw [if_neg (by push_neg; intro _; linarith)]
      have hine : i ≠ pre.length := by
        intro heq
        rw [heq, take_append_length, hget] at ht2
        linarith
      cases suf' with
      | nil =>
        simp only [List.length_append, List.length_cons, List.length_nil] at hi2
        omega
      | cons d rest =>
        rw [if_neg (by
          push_neg
          intro _
          simp only [List.length_append, List.length_cons]
          omega)]
        have hrw : pre ++ c :: d :: rest = (pre ++ [c]) ++ d :: rest := by simp
        have hsum : sumDur pre + c.duration = sumDur (pre ++ [c]) := by
          rw [sumDur_append, sumDur_cons, sumDur_nil]; ring
        have hlen1 : pre.length + 1 = (pre ++ [c]).length := by simp
        rw [hsum, hlen1]
        rw [hrw] at hpos ht1 ht2 hi2 ⊢
        exact ih (pre ++ [c]) acc hpos i (by simp at hlen1 ⊢; omega) hi2 ht1 ht2
  
/-- At or past the total duration the loop falls back to the last chunk. -/
theorem seekFindLoop_boundary (t : ℚ) :
    ∀ (suf pre : List AudioChunk) (acc : ℕ), suf ≠ [] →
      (∀ c ∈ pre ++ suf, 0 < c.duration) →
      sumDur (pre ++ suf) ≤ t →
      seekFindLoop (pre ++ suf) t ((recalcAux suf (sumDur pre)).1) pre.length acc =
        (pre ++ suf).length - 1 := by
  intro suf
  induction suf with
  | nil => intro pre acc hne; exact absurd rfl hne
  | cons c suf' ih =>
    intro pre acc _ hpos htot
    have hget : (pre ++ c :: suf').getD pre.length default = c :=
      getD_append_length pre c suf' default
    have hlenlt : pre.length < (pre ++ c :: suf').length := by simp
    have hrest : 0 ≤ sumDur suf' := sumDur_nonneg fun x hx =>
      hpos x (List.mem_append_right pre (List.mem_cons_of_mem c hx))
    have hend : sumDur pre + c.duration ≤ t := by
      rw [sumDur_append, sumDur_cons] at htot
      linarith
    have hstarts : (recalcAux (c :: suf') (sumDur pre)).1 =
        sumDur pre :: (recalcAux suf' (sumDur pre + c.duration)).1 := rfl
    rw [hstarts, seekFindLoop]
    rw [if_pos hlenlt]
    simp only [hget]
    rw [if_neg (by push_neg; intro _; linarith)]
    cases suf' with
    | nil =>
      rw [if_pos ⟨by linarith, by simp⟩]
      have hre : (recalcAux ([] : List AudioChunk) (sumDur pre + c.duration)).1 = [] := rfl
      rw [hre, seekFindLoop]
      simp
    | cons d rest =>
      rw [if_neg (by
        push_neg
        intro _
        simp only [List.length_append, List.length_cons]
        omega)]
      have hrw : pre ++ c :: d :: rest = (pre ++ [c]) ++ d :: rest := by simp
      have hsum : sumDur pre + c.duration = sumDur (pre ++ [c]) := by
        rw [sumDur_append, sumDur_cons, sumDur_nil]; ring
      have hlen1 : pre.length + 1 = (pre ++ [c]).length := by simp
      rw [hsum, hlen1]
      rw [hrw] at hpos htot ⊢
      exact ih (pre ++ [c]) acc (by simp) hpos htot

end Consumemate

namespace Consumemate


theorem updateCurrentWord_currentChunkIndex (x : PlayerState) :
    (updateCurrentWord x).currentChunkIndex = x.currentChunkIndex := by
  simp only [updateCurrentWord]
  cases h : swiftWordLoop (swiftTrunc (x.currentTime * 1000)) x.allWordTimings 0 <;>
    simp [h]

theorem updateCurrentWord_player (x : PlayerState) :
    (updateCurrentWord x).player = x.player := by
  simp only [updateCurrentWord]
  cases h : swiftWordLoop (swiftTrunc (x.currentTime * 1000)) x.allWordTimings 0 <;>
    simp [h]

theorem updateCurrentWord_currentTime (x : PlayerState) :
    (updateCurrentWord x).currentTime = x.currentTime := by
  simp only [updateCurrentWord]
  cases h : swiftWordLoop (swiftTrunc (x.currentTime * 1000)) x.allWordTimings 0 <;>
    simp [h]

end Consumemate

namespace Consumemate


end Consumemate

namespace Consumemate

theorem seek_mem_correct (s : PlayerState) (t : ℚ)
    (hstarts : s.chunkStartTimes = (recalcAux s.chunks 0).1)
    (hpos : ∀ c ∈ s.chunks, 0 < c.duration)
    (pl : AVPlayer) (hpl : s.player = some pl)
    (hpld : pl.duration = (s.chunks.getD s.currentChunkIndex default).duration)
    (i : ℕ) (hi : i < s.chunks.length)
    (hta : sumDur (s.chunks.take i) ≤ max 0 (min t s.duration))
    (htb : max 0 (min t s.duration) <
      sumDur (s.chunks.take i) + (s.chunks.getD i default).duration) :
    (seek s t).currentChunkIndex = i ∧
    (seek s t).player = some ⟨max 0 (min t s.duration) - sumDur (s.chunks.take i),
      (s.chunks.getD i default).duration⟩ ∧
    (seek s t).currentTime = max 0 (min t s.duration) := by
  have hfind : seekFindLoop s.chunks (max 0 (min t s.duration))
      s.chunkStartTimes 0 0 = i := by
    rw [hstarts]
    have h := seekFindLoop_mem (max 0 (min t s.duration)) s.chunks [] 0
      (by simpa using hpos) i (Nat.zero_le i) (by simpa using hi)
      (by simpa using hta) (by simpa using htb)
    simpa [sumDur_nil] using h
  have hstl : s.chunkStartTimes.length = s.chunks.length := by
    rw [hstarts, recalcAux_fst_length]
  have hgetst : s.chunkStartTimes.getD i 0 = sumDur (s.chunks.take i) := by
    rw [hstarts, recalcAux_fst_getD s.chunks 0 i hi, zero_add]
  have hclamp : 0 ≤ max 0 (min t s.duration) - sumDur (s.chunks.take i) := by
    linarith
  have hclamp2 : max 0 (min t s.duration) - sumDur (s.chunks.take i) ≤
      (s.chunks.getD i default).duration := by
    linarith
  simp only [seek, hfind]
  by_cases hcase : i ≠ s.currentChunkIndex ∧ i < s.chunks.length
  · rw [if_pos hcase]
    simp only [loadChunkIntoPlayer, if_pos hi]
    rw [if_pos (show i < s.chunkStartTimes.length from hstl ▸ hi)]
    dsimp only
    simp only [updateCurrentWord_currentChunkIndex, updateCurrentWord_player,
      updateCurrentWord_currentTime, hgetst]
    refine ⟨by trivial, ?_, by trivial⟩
    rw [min_eq_left hclamp2, max_eq_right hclamp]
  · rw [if_neg hcase]
    have hieq : i = s.currentChunkIndex := by
      by_contra hne
      exact hcase ⟨hne, hi⟩
    have hd : pl.duration = (s.chunks.getD i default).duration := by
      rw [hpld, ← hieq]
    rw [hpl]
    dsimp only
    rw [if_pos (show s.currentChunkIndex < s.chunkStartTimes.length from by
      rw [hstl, ← hieq]; exact hi)]
    dsimp only
    simp only [updateCurrentWord_currentChunkIndex, updateCurrentWord_player,
      updateCurrentWord_currentTime]
    refine ⟨by exact hieq.symm, ?_, by trivial⟩
    rw [← hieq, hgetst, hd]
    rw [min_eq_left hclamp2, max_eq_right hclamp]

end Consumemate

namespace Consumemate

theorem getD_mem {l : List AudioChunk} {n : ℕ} (h : n < l.length) (d : AudioChunk) :
    l.getD n d ∈ l := by
  rw [List.getD_eq_getElem l d h]
  exact List.getElem_mem h

theorem sumDur_split_last {l : List AudioChunk} (h : l ≠ []) :
    sumDur l = sumDur (l.take (l.length - 1)) +
      (l.getD (l.length - 1) default).duration := by
  have hlt : l.length - 1 < l.length := by
    have := List.length_pos.mpr h
    omega
  have hgd : l.getD (l.length - 1) default = l.getLast h := by
    rw [List.getD_eq_getElem l default hlt, List.getLast_eq_getElem]
  have htk : l.take (l.length - 1) = l.dropLast := (List.dropLast_eq_take l).symm
  rw [hgd, htk]
  conv_lhs => rw [← List.dropLast_append_getLast h]
  rw [sumDur_append, sumDur_cons, sumDur_nil]
  ring

/-- C7 helper: at or past the total known duration, `seek` selects the last
chunk and positions the engine at its end. -/
theorem seek_boundary_correct (s : PlayerState) (t : ℚ)
    (hstarts : s.chunkStartTimes = (recalcAux s.chunks 0).1)
    (hdur : s.duration = sumDur s.chunks)
    (hpos : ∀ c ∈ s.chunks, 0 < c.duration)
    (pl : AVPlayer) (hpl : s.player = some pl)
    (hpld : pl.duration = (s.chunks.getD s.currentChunkIndex default).duration)
    (hne : s.chunks ≠ []) (htot : s.duration ≤ t) :
    (seek s t).currentChunkIndex = s.chunks.length - 1 ∧
    (seek s t).player =
      some ⟨(s.chunks.getD (s.chunks.length - 1) default).duration,
        (s.chunks.getD (s.chunks.length - 1) default).duration⟩ ∧
    (seek s t).currentTime = s.duration := by
  have hlenpos : 0 < s.chunks.length := List.length_pos.mpr hne
  have hj : s.chunks.length - 1 < s.chunks.length := by omega
  have hdnn : 0 ≤ s.duration := hdur ▸ sumDur_nonneg hpos
  have ht' : max 0 (min t s.duration) = s.duration := by
    rw [min_eq_right htot, max_eq_right hdnn]
  have hfind : seekFindLoop s.chunks (max 0 (min t s.duration))
      s.chunkStartTimes 0 0 = s.chunks.length - 1 := by
    rw [hstarts]
    have h := seekFindLoop_boundary (max 0 (min t s.duration)) s.chunks [] 0 hne
      (by simpa using hpos) (by
        simp only [List.nil_append]
        rw [← hdur, ht'])
    simpa [sumDur_nil] using h
  have hstl : s.chunkStartTimes.length = s.chunks.length := by
    rw [hstarts, recalcAux_fst_length]
  have hgetst : s.chunkStartTimes.getD (s.chunks.length - 1) 0 =
      sumDur (s.chunks.take (s.chunks.length - 1)) := by
    rw [hstarts, recalcAux_fst_getD s.chunks 0 _ hj, zero_add]
  have hdj : 0 < (s.chunks.getD (s.chunks.length - 1) default).duration :=
    hpos _ (getD_mem hj default)
  have hsplit := sumDur_split_last hne
  have hposdiff : s.duration - sumDur (s.chunks.take (s.chunks.length - 1)) =
      (s.chunks.getD (s.chunks.length - 1) default).duration := by
    rw [hdur, hsplit]
    ring
  simp only [seek, hfind]
  by_cases hcase : s.chunks.length - 1 ≠ s.currentChunkIndex ∧
      s.chunks.length - 1 < s.chunks.length
  · rw [if_pos hcase]
    simp only [loadChunkIntoPlayer, if_pos hj]
    rw [if_pos (show s.chunks.length - 1 < s.chunkStartTimes.length from hstl ▸ hj)]
    dsimp only
    simp only [updateCurrentWord_currentChunkIndex, updateCurrentWord_player,
      updateCurrentWord_currentTime, hgetst, ht', hposdiff]
    refine ⟨by trivial, ?_, by trivial⟩
    rw [min_self, max_eq_right (le_of_lt hdj)]
  · rw [if_neg hcase]
    have hieq : s.chunks.length - 1 = s.currentChunkIndex := by
      by_contra hneq
      exact hcase ⟨hneq, hj⟩
    have hd : pl.duration = (s.chunks.getD (s.chunks.length - 1) default).duration := by
      rw [hpld, ← hieq]
    rw [hpl]
    dsimp only
    rw [if_pos (show s.currentChunkIndex < s.chunkStartTimes.length from by
      rw [hstl, ← hieq]; exact hj)]
    dsimp only
    simp only [updateCurrentWord_currentChunkIndex, updateCurrentWord_player,
      updateCurrentWord_currentTime]
    refine ⟨by exact hieq.symm, ?_, by simp [ht']⟩
    rw [← hieq, hgetst, hd, ht', hposdiff]
    rw [min_self, max_eq_right (le_of_lt hdj)]

end Consumemate

namespace Consumemate

/--
**C7** (confirmed).  `seek(targetMs)` clamps the target to
`[0, totalKnownDurationMs]`, selects the chunk whose
`[chunkStart, chunkStart + chunkDuration)` interval contains the clamped
target — falling back to the last chunk when the target sits exactly on the
last known boundary — and sets the intra-chunk engine position to
`target - chunkStart` (Swift works in seconds; the spec's `seek(15000)` on
durations `[10000ms, 8000ms, 12000ms]` is `seek 15` on `[10, 8, 12]`, see
the witness).
-/
theorem c7_seek_correct (s : PlayerState) (t : ℚ)
    (hstarts : s.chunkStartTimes = (recalcAux s.chunks 0).1)
    (hdur : s.duration = sumDur s.chunks)
    (hpos : ∀ c ∈ s.chunks, 0 < c.duration)
    (pl : AVPlayer) (hpl : s.player = some pl)
    (hpld : pl.duration = (s.chunks.getD s.currentChunkIndex default).duration) :
    (∀ i, i < s.chunks.length →
      sumDur (s.chunks.take i) ≤ max 0 (min t s.duration) →
      max 0 (min t s.duration) <
        sumDur (s.chunks.take i) + (s.chunks.getD i default).duration →
      (seek s t).currentChunkIndex = i ∧
      (seek s t).player = some ⟨max 0 (min t s.duration) - sumDur (s.chunks.take i),
        (s.chunks.getD i default).duration⟩ ∧
      (seek s t).currentTime = max 0 (min t s.duration)) ∧
    (s.chunks ≠ [] → s.duration ≤ t →
      (seek s t).currentChunkIndex = s.chunks.length - 1 ∧
      (seek s t).player =
        some ⟨(s.chunks.getD (s.chunks.length - 1) default).duration,
          (s.chunks.getD (s.chunks.length - 1) default).duration⟩ ∧
      (seek s t).currentTime = s.duration) :=
  ⟨fun i hi hta htb =>
    seek_mem_correct s t hstarts hpos pl hpl hpld i hi hta htb,
  fun hne htot =>
    seek_boundary_correct s t hstarts hdur hpos pl hpl hpld hne htot⟩

/-- **C7** witness: durations `[10, 8, 12]` seconds; `seek` to 15 s selects
chunk 1 and places the engine 5 s into it. -/
theorem c7_witness :
    (seek ⟨[⟨0, [], 10⟩, ⟨1, [], 8⟩, ⟨2, [], 12⟩], [0, 10, 18], [], 30, 0, 0, -1,
        false, false, false, 3, 3, some ⟨0, 10⟩⟩ 15).currentChunkIndex = 1 ∧
    (seek ⟨[⟨0, [], 10⟩, ⟨1, [], 8⟩, ⟨2, [], 12⟩], [0, 10, 18], [], 30, 0, 0, -1,
        false, false, false, 3, 3, some ⟨0, 10⟩⟩ 15).player = some ⟨5, 8⟩ ∧
    (seek ⟨[⟨0, [], 10⟩, ⟨1, [], 8⟩, ⟨2, [], 12⟩], [0, 10, 18], [], 30, 0, 0, -1,
        false, false, false, 3, 3, some ⟨0, 10⟩⟩ 15).currentTime = 15 := by
  have h := (c7_seek_correct
    ⟨[⟨0, [], 10⟩, ⟨1, [], 8⟩, ⟨2, [], 12⟩], [0, 10, 18], [], 30, 0, 0, -1,
      false, false, false, 3, 3, some ⟨0, 10⟩⟩ 15
    (by norm_num [recalcAux]) (by norm_num [sumDur])
    (by intro c hc; fin_cases hc <;> norm_num) ⟨0, 10⟩ rfl rfl).1 1
    (by norm_num) (by norm_num [sumDur]) (by norm_num [sumDur])
  refine ⟨h.1, ?_, ?_⟩
  · rw [h.2.1]
    norm_num [sumDur]
  · rw [h.2.2]
    norm_num

end Consumemate

namespace Consumemate

/-- C8 helper: the loop returns the index (offset by the running counter) of
an entry containing `p` in its closed interval, provided every earlier entry
was already passed (`stop < p`). -/
theorem currentWordLoop_finds :
    ∀ (ts : List WordTiming) (i0 : ℕ) (p : ℤ) (i : ℕ), i < ts.length →
      (∀ t ∈ ts, t.start ≤ t.stop) →
      ts.Pairwise (fun a b => a.stop ≤ b.start) →
      (ts.getD i default).start ≤ p → p ≤ (ts.getD i default).stop →
      (∀ j, j < i → (ts.getD j default).stop < p) →
      currentWordLoop p ts i0 = some (i0 + i) := by
  intro ts
  induction ts with
  | nil => intro i0 p i hi; simp at hi
  | cons t tail ih =>
    intro i0 p i hi hse hpw ha hb hearlier
    cases tail with
    | nil =>
      simp only [List.length_cons, List.length_nil] at hi
      interval_cases i
      rw [currentWordLoop]
      rw [if_pos ⟨ha, hb⟩]
      simp
    | cons t' rest =>
      cases i with
      | zero =>
        rw [currentWordLoop]
        rw [if_pos ⟨ha, hb⟩]
        simp
      | succ j =>
        have hpassed : t.stop < p := hearlier 0 (Nat.succ_pos j)
        rw [currentWordLoop]
        rw [if_neg (by push_neg; intro _; linarith)]
        rw [if_neg (by
          push_neg
          intro _
          cases j with
          | zero =>
            simp only [List.getD_cons_succ, List.getD_cons_zero] at ha
            linarith
          | succ j' =>
            have h1 : ((t' :: rest).getD 0 default).stop < p :=
              hearlier 1 (by omega)
            have h0 : ((t' :: rest).getD 0 default).start ≤
                ((t' :: rest).getD 0 default).stop :=
              hse t' (by simp)
            simp only [List.getD_cons_zero] at h1 h0
            linarith)]
        have htail := ih (i0 + 1) p j (by simpa using hi)
          (fun x hx => hse x (List.mem_cons_of_mem t hx))
          (List.Pairwise.of_cons hpw)
          (by simpa using ha) (by simpa using hb)
          (fun j' hj' => by
            have := hearlier (j' + 1) (by omega)
            simpa using this)
        rw [htail]
        congr 1
        omega

end Consumemate

namespace Consumemate

theorem getD_mem_of_lt {α : Type} {l : List α} {n : ℕ} (h : n < l.length) (d : α) :
    l.getD n d ∈ l := by
  rw [List.getD_eq_getElem l d h]
  exact List.getElem_mem h

theorem head_stop_le_getD (t : WordTiming) (tail : List WordTiming)
    (hse : ∀ x ∈ t :: tail, x.start ≤ x.stop)
    (hpw : (t :: tail).Pairwise (fun a b => a.stop ≤ b.start))
    (j : ℕ) (hj : j < tail.length) :
    t.stop ≤ (tail.getD j default).stop := by
  have hmem : tail.getD j default ∈ tail := getD_mem_of_lt hj default
  have h1 := (List.pairwise_cons.mp hpw).1 _ hmem
  have h2 := hse _ (List.mem_cons_of_mem t hmem)
  linarith

/-- C8 helper: a strict gap between entry `i` and entry `i+1` reports `i`. -/
theorem currentWordLoop_gap :
    ∀ (ts : List WordTiming) (i0 : ℕ) (p : ℤ) (i : ℕ), i + 1 < ts.length →
      (∀ t ∈ ts, t.start ≤ t.stop) →
      ts.Pairwise (fun a b => a.stop ≤ b.start) →
      (ts.getD i default).stop < p → p < (ts.getD (i + 1) default).start →
      currentWordLoop p ts i0 = some (i0 + i) := by
  intro ts
  induction ts with
  | nil => intro i0 p i hi; simp at hi
  | cons t tail ih =>
    intro i0 p i hi hse hpw ha hb
    cases tail with
    | nil => simp at hi
    | cons t' rest =>
      cases i with
      | zero =>
        simp only [List.getD_cons_zero, List.getD_cons_succ] at ha hb
        rw [currentWordLoop]
        rw [if_neg (by push_neg; intro _; linarith)]
        rw [if_pos ⟨ha, by simpa using hb⟩]
        simp
      | succ j =>
        simp only [List.getD_cons_succ] at ha hb
        have hj2 : j < (t' :: rest).length := by
          simp only [List.length_cons] at hi ⊢
          omega
        have htstop : t.stop ≤ ((t' :: rest).getD j default).stop :=
          head_stop_le_getD t (t' :: rest) hse hpw j hj2
        have htp : t.stop < p := lt_of_le_of_lt htstop ha
        rw [currentWordLoop]
        rw [if_neg (by push_neg; intro _; linarith)]
        rw [if_neg (by
          push_neg
          intro _
          have h0 : t'.start ≤ t'.stop := hse t' (by simp)
          cases j with
          | zero =>
            simp only [List.getD_cons_zero] at ha
            linarith
          | succ j' =>
            have hj3 : j' < rest.length := by
              simp only [List.length_cons] at hi
              omega
            have h1 : t'.stop ≤ (rest.getD j' default).stop :=
              head_stop_le_getD t' rest
                (fun x hx => hse x (List.mem_cons_of_mem t hx))
                (List.Pairwise.of_cons hpw) j' hj3
            simp only [List.getD_cons_succ] at ha
            linarith)]
        have htail := ih (i0 + 1) p j (by simpa using hi)
          (fun x hx => hse x (List.mem_cons_of_mem t hx))
          (List.Pairwise.of_cons hpw) ha hb
        rw [htail]
        congr 1
        omega

/-- C8 helper: strictly past every entry, the loop finds nothing. -/
theorem currentWordLoop_none :
    ∀ (ts : List WordTiming) (i0 : ℕ) (p : ℤ),
      (∀ t ∈ ts, t.start ≤ t.stop) →
      ts.Pairwise (fun a b => a.stop ≤ b.start) →
      (∀ t ∈ ts, t.stop < p) →
      currentWordLoop p ts i0 = none := by
  intro ts
  induction ts with
  | nil => intro i0 p _ _ _; rfl
  | cons t tail ih =>
    intro i0 p hse hpw hpast
    have hstop : t.stop < p := hpast t (List.mem_cons_self _ _)
    cases tail with
    | nil =>
      rw [currentWordLoop]
      rw [if_neg (by push_neg; intro _; linarith)]
    | cons t' rest =>
      rw [currentWordLoop]
      rw [if_neg (by push_neg; intro _; linarith)]
      rw [if_neg (by
        push_neg
        intro _
        have h0 : t'.start ≤ t'.stop := hse t' (by simp)
        have h1 : t'.stop < p := hpast t' (by simp)
        linarith)]
      exact ih (i0 + 1) p (fun x hx => hse x (List.mem_cons_of_mem t hx))
        (List.Pairwise.of_cons hpw)
        (fun x hx => hpast x (List.mem_cons_of_mem t hx))

theorem getLastD_mem_of_ne_nil :
    ∀ (l : List WordTiming), l ≠ [] → ∀ d, l.getLastD d ∈ l := by
  intro l
  induction l with
  | nil => intro h; exact absurd rfl h
  | cons a as ih =>
    intro _ d
    cases as with
    | nil => simp [List.getLastD]
    | cons b bs =>
      rw [List.getLastD_cons]
      exact List.mem_cons_of_mem a (ih (by simp) a)

/-- C8 helper (Swift side): the sequencer's word loop returns the index of an
entry containing the millisecond position in its half-open interval, provided
every earlier entry's end is at or before the position. -/
theorem swiftWordLoop_finds :
    ∀ (ts : List SWordTiming) (i0 : ℕ) (cm : ℤ) (i : ℕ), i < ts.length →
      (ts.getD i ⟨"", 0, 0⟩).start ≤ cm → cm < (ts.getD i ⟨"", 0, 0⟩).stop →
      (∀ j, j < i → (ts.getD j ⟨"", 0, 0⟩).stop ≤ cm) →
      swiftWordLoop cm ts i0 = some (i0 + i) := by
  intro ts
  induction ts with
  | nil => intro i0 cm i hi; simp at hi
  | cons t tail ih =>
    intro i0 cm i hi ha hb hearlier
    cases i with
    | zero =>
      simp only [List.getD_cons_zero] at ha hb
      rw [swiftWordLoop]
      rw [if_pos ⟨ha, hb⟩]
      simp
    | succ j =>
      simp only [List.getD_cons_succ] at ha hb
      have h0 : t.stop ≤ cm := by
        have := hearlier 0 (Nat.succ_pos j)
        simpa using this
      rw [swiftWordLoop]
      rw [if_neg (by push_neg; intro _; exact h0)]
      have htail := ih (i0 + 1) cm j (by simpa using hi) ha hb (fun k hk => by
        have := hearlier (k + 1) (by omega)
        simpa using this)
      rw [htail]
      congr 1
      omega

/-- **C8** (amended).  On the article screen, the reported current word index
is the sentinel `-1` with no timings; otherwise (at a nonzero position `p`)
the first entry whose **closed** interval `[start, stop]` contains `p` (the
code uses `<=` on both ends, not the half-open `[start, end)` of the claim,
and position `0` always reports `-1`); in a strict gap after entry `i` it
reports `i`; strictly past every entry's end it reports the last index.  In
the Swift sequencer, `updateCurrentWord` sets the index of the entry whose
half-open interval contains the millisecond position once all earlier entries
have ended (it has no gap or past-the-end fallback).  Hypotheses: entries are
well-formed (`start <= stop`) and sorted with disjoint intervals. -/
theorem c8_current_word_reporting (ts : List WordTiming) (p : ℤ)
    (s : PlayerState) (cm : ℤ)
    (hse : ∀ t ∈ ts, t.start ≤ t.stop)
    (hpw : ts.Pairwise (fun a b => a.stop ≤ b.start))
    (hp : p ≠ 0)
    (hcm : cm = swiftTrunc (s.currentTime * 1000)) :
    (ts = [] → currentWordIndex ts p = -1) ∧
    (∀ i, i < ts.length →
      (ts.getD i default).start ≤ p → p ≤ (ts.getD i default).stop →
      (∀ j, j < i → (ts.getD j default).stop < p) →
      currentWordIndex ts p = (i : ℤ)) ∧
    (∀ i, i + 1 < ts.length →
      (ts.getD i default).stop < p → p < (ts.getD (i + 1) default).start →
      currentWordIndex ts p = (i : ℤ)) ∧
    (ts ≠ [] → (∀ t ∈ ts, t.stop < p) →
      currentWordIndex ts p = (ts.length : ℤ) - 1) ∧
    (∀ i, i < s.allWordTimings.length →
      (s.allWordTimings.getD i ⟨"", 0, 0⟩).start ≤ cm →
      cm < (s.allWordTimings.getD i ⟨"", 0, 0⟩).stop →
      (∀ j, j < i → (s.allWordTimings.getD j ⟨"", 0, 0⟩).stop ≤ cm) →
      (updateCurrentWord s).currentWordIndex = (i : ℤ)) := by
  subst hcm
  refine ⟨?_, ?_, ?_, ?_, ?_⟩
  · intro h
    subst h
    rfl
  · intro i hi ha hb hearlier
    have hne : ts ≠ [] := by intro h; subst h; simp at hi
    have hcond : ¬((ts.isEmpty || p == 0) = true) := by
      simp [List.isEmpty_iff, hne, hp]
    simp only [currentWordIndex]
    rw [if_neg hcond, currentWordLoop_finds ts 0 p i hi hse hpw ha hb hearlier]
    simp
  · intro i hi ha hb
    have hne : ts ≠ [] := by intro h; subst h; simp at hi
    have hcond : ¬((ts.isEmpty || p == 0) = true) := by
      simp [List.isEmpty_iff, hne, hp]
    simp only [currentWordIndex]
    rw [if_neg hcond, currentWordLoop_gap ts 0 p i hi hse hpw ha hb]
    simp
  · intro hne hpast
    have hcond : ¬((ts.isEmpty || p == 0) = true) := by
      simp [List.isEmpty_iff, hne, hp]
    have hlast : (ts.getLastD default).stop < p :=
      hpast _ (getLastD_mem_of_ne_nil ts hne default)
    simp only [currentWordIndex]
    rw [if_neg hcond, currentWordLoop_none ts 0 p hse hpw hpast]
    rw [if_pos ⟨List.length_pos.mpr hne, hlast⟩]
  · intro i hi ha hb hearlier
    have hfind := swiftWordLoop_finds s.allWordTimings 0
      (swiftTrunc (s.currentTime * 1000)) i hi ha hb hearlier
    simp only [updateCurrentWord, hfind]
    simp

/-- **C8** counterexample.  With words at `[0,10]` and `[10,20]`, position
`10` lies in the second word's half-open `[start, end)` interval of the
claim, but the screen reports word `0` (closed intervals); position `0` lies
in `[0, 10)` of the first word, but the screen reports `-1`; and in the
Swift sequencer, a position in the gap between two words (claim: report the
earlier word) leaves the stale index `-1` untouched. -/
theorem c8_counterexample :
    currentWordIndex [⟨['a'], 0, 10⟩, ⟨['b'], 10, 20⟩] 10 = 0 ∧
    currentWordIndex [⟨['a'], 0, 10⟩] 0 = -1 ∧
    (updateCurrentWord
      ⟨[], [], [⟨"a", 0, 10000⟩, ⟨"b", 20000, 30000⟩], 30, 15, 0, -1,
        false, false, false, 1, 1, none⟩).currentWordIndex = -1 := by
  refine ⟨by decide, by decide, ?_⟩
  have hcm2 : swiftTrunc ((15 : ℚ) * 1000) = 15000 := by
    norm_num [swiftTrunc]
  have hloop : swiftWordLoop 15000
      [⟨"a", 0, 10000⟩, ⟨"b", 20000, 30000⟩] 0 = none := by decide
  simp only [updateCurrentWord]
  rw [hcm2, hloop]

theorem c8_witness :
    currentWordIndex [⟨['a'], 0, 10⟩, ⟨['b'], 20, 30⟩] 25 = 1 ∧
    (updateCurrentWord
      ⟨[], [], [⟨"a", 0, 10000⟩], 30, 5, 0, -1,
        false, false, false, 1, 1, none⟩).currentWordIndex = 0 := by
  have h := c8_current_word_reporting [⟨['a'], 0, 10⟩, ⟨['b'], 20, 30⟩] 25
    ⟨[], [], [⟨"a", 0, 10000⟩], 30, 5, 0, -1, false, false, false, 1, 1, none⟩
    (swiftTrunc ((5 : ℚ) * 1000))
    (by decide) (by decide) (by decide) rfl
  refine ⟨?_, ?_⟩
  · exact h.2.1 1 (by decide) (by decide) (by decide)
      (fun j hj => by
        have hj0 : j = 0 := by omega
        subst hj0
        decide)
  · exact h.2.2.2.2 0 (by decide) (by norm_num [swiftTrunc])
      (by norm_num [swiftTrunc]) (fun j hj => by omega)

theorem jsRound_mono {a b : ℚ} (h : a ≤ b) : jsRound a ≤ jsRound b :=
  Int.floor_mono (by linarith)

theorem mem_enumFrom_le {α : Type} :
    ∀ (l : List α) (n : ℕ) (p : ℕ × α), p ∈ l.enumFrom n → n ≤ p.1 := by
  intro l
  induction l with
  | nil => intro n p hp; simp [List.enumFrom] at hp
  | cons a as ih =>
    intro n p hp
    simp only [List.enumFrom, List.mem_cons] at hp
    rcases hp with h | h
    · subst h; exact le_refl n
    · have := ih (n + 1) p h; omega

theorem pairwise_enumFrom_lt {α : Type} :
    ∀ (l : List α) (n : ℕ), (l.enumFrom n).Pairwise (fun a b => a.1 < b.1) := by
  intro l
  induction l with
  | nil => intro n; simp [List.enumFrom]
  | cons a as ih =>
    intro n
    simp only [List.enumFrom]
    refine List.Pairwise.cons ?_ (ih (n + 1))
    intro p hp
    have := mem_enumFrom_le as (n + 1) p hp
    simp only
    omega

theorem pairwise_enum_lt {α : Type} (l : List α) :
    l.enum.Pairwise (fun a b => a.1 < b.1) := pairwise_enumFrom_lt l 0

/-- C6 helper: the estimated fallback is always sorted by start (for a
nonnegative duration). -/
theorem generateEstimatedWordTimings_sorted (text : List Char) (d : ℚ)
    (hd : 0 ≤ d) :
    (generateEstimatedWordTimings text d).Pairwise
      (fun a b => a.start ≤ b.start) := by
  unfold generateEstimatedWordTimings
  by_cases h0 : (wordsOf text).length = 0
  · simp [h0]
  · rw [if_neg h0]
    rw [List.pairwise_map]
    refine (pairwise_enum_lt (wordsOf text)).imp ?_
    intro a b hab
    dsimp only
    apply jsRound_mono
    have havg : 0 ≤ d / ((wordsOf text).length : ℚ) := by positivity
    have hle : (a.1 : ℚ) ≤ (b.1 : ℚ) := by exact_mod_cast Nat.le_of_lt hab
    exact mul_le_mul_of_nonneg_right hle havg

/-- C6 helper: the estimated fallback is well-formed (`start ≤ stop`) exactly
when the average word slice is at least the 10 ms it subtracts. -/
theorem generateEstimatedWordTimings_wf (text : List Char) (d : ℚ)
    (h : 10 * ((wordsOf text).length : ℚ) ≤ d) :
    ∀ t ∈ generateEstimatedWordTimings text d, t.start ≤ t.stop := by
  intro t ht
  unfold generateEstimatedWordTimings at ht
  by_cases h0 : (wordsOf text).length = 0
  · simp [h0] at ht
  · rw [if_neg h0] at ht
    simp only [List.mem_map] at ht
    obtain ⟨iw, hmem, rfl⟩ := ht
    dsimp only
    apply jsRound_mono
    have hn : (0 : ℚ) < ((wordsOf text).length : ℚ) := by
      exact_mod_cast Nat.pos_of_ne_zero h0
    have havg : (10 : ℚ) ≤ d / ((wordsOf text).length : ℚ) := by
      rw [le_div_iff₀ hn]
      linarith
    have hexp : ((iw.1 : ℚ) + 1) * (d / ((wordsOf text).length : ℚ)) =
        (iw.1 : ℚ) * (d / ((wordsOf text).length : ℚ)) +
          d / ((wordsOf text).length : ℚ) := by ring
    linarith

/-- C6 helper: invariant of the character loop of `convertWithTimestamps`.
For chained alignment data the produced timings have disjoint intervals
(in order), well-formed entries, and all starts bounded below by the running
word start. -/
theorem extractWordsLoop_invariant :
    ∀ (L : List (Char × ℚ × ℚ)) (cur : List Char) (ws pe : ℚ),
      alignChain pe L = true → ws ≤ pe →
      (extractWordsLoop L cur ws pe).Pairwise (fun a b => a.stop ≤ b.start) ∧
      (∀ t ∈ extractWordsLoop L cur ws pe, t.start ≤ t.stop) ∧
      (∀ t ∈ extractWordsLoop L cur ws pe, jsRound (ws * 1000) ≤ t.start) := by
  intro L
  induction L with
  | nil =>
    intro cur ws pe _ hws
    rw [extractWordsLoop]
    by_cases hemp : (jsTrim cur).isEmpty = true
    · rw [if_pos hemp]
      exact ⟨List.Pairwise.nil, by simp, by simp⟩
    · rw [if_neg hemp]
      refine ⟨by simp, ?_, ?_⟩
      · intro t ht
        simp only [List.mem_singleton] at ht
        subst ht
        exact jsRound_mono (by linarith)
      · intro t ht
        simp only [List.mem_singleton] at ht
        subst ht
        exact le_refl _
  | cons hd rest ih =>
    obtain ⟨ch, st, en⟩ := hd
    intro cur ws pe hchain hws
    simp only [alignChain, Bool.and_eq_true, decide_eq_true_eq] at hchain
    obtain ⟨⟨hpes, hsten⟩, hchain2⟩ := hchain
    rw [extractWordsLoop]
    by_cases hsp : (ch == ' ' || ch == '\n') = true
    · rw [if_pos hsp]
      have hrec := ih [] en en hchain2 (le_refl en)
      by_cases hemp : (jsTrim cur).isEmpty = true
      · rw [if_pos hemp]
        simp only [List.nil_append]
        refine ⟨hrec.1, hrec.2.1, ?_⟩
        intro t ht
        have h1 := hrec.2.2 t ht
        have hmono : jsRound (ws * 1000) ≤ jsRound (en * 1000) :=
          jsRound_mono (by linarith)
        linarith
      · rw [if_neg hemp]
        rw [List.singleton_append]
        refine ⟨?_, ?_, ?_⟩
        · refine List.Pairwise.cons ?_ hrec.1
          intro t ht
          have h1 := hrec.2.2 t ht
          have hmono : jsRound (pe * 1000) ≤ jsRound (en * 1000) :=
            jsRound_mono (by linarith)
          dsimp only
          linarith
        · intro t ht
          rcases List.mem_cons.mp ht with h | h
          · subst h
            exact jsRound_mono (by linarith)
          · exact hrec.2.1 t h
        · intro t ht
          rcases List.mem_cons.mp ht with h | h
          · subst h
            exact le_refl _
          · have h1 := hrec.2.2 t h
            have hmono : jsRound (ws * 1000) ≤ jsRound (en * 1000) :=
              jsRound_mono (by linarith)
            linarith
    · rw [if_neg hsp]
      have hws2 : (if cur.isEmpty then st else ws) ≤ en := by
        by_cases hce : cur.isEmpty = true
        · rw [if_pos hce]; linarith
        · rw [if_neg hce]; linarith
      have hrec := ih (cur ++ [ch]) (if cur.isEmpty then st else ws) en
        hchain2 hws2
      refine ⟨hrec.1, hrec.2.1, ?_⟩
      intro t ht
      have h1 := hrec.2.2 t ht
      have hmono : jsRound (ws * 1000) ≤
          jsRound ((if cur.isEmpty then st else ws) * 1000) := by
        apply jsRound_mono
        by_cases hce : cur.isEmpty = true
        · rw [if_pos hce]; nlinarith
        · rw [if_neg hce]
      linarith

/-- **C6** (amended).  Word-timing monotonicity.  On the provider-alignment
path, for chained alignment data (each character's `start ≤ end`, ends bound
the next start) the extracted timings are sorted by start and well-formed.
On the estimated fallback, the timings are always sorted by start (for a
nonnegative duration), but `start ≤ end` holds only when the duration covers
at least 10 ms per word: the code computes `end = round((i+1)*avg - 10)`,
which drops below `start` whenever `avg < 10`. -/
theorem c6_word_timing_monotonicity (al : Alignment) (text : List Char)
    (d : ℚ)
    (hchain : alignChain 0
      (al.characters.zip
        (al.characterStartTimesSeconds.zip al.characterEndTimesSeconds)) =
      true)
    (hd : 0 ≤ d) :
    ((alignmentToWordTimings al).Pairwise (fun a b => a.start ≤ b.start) ∧
      ∀ t ∈ alignmentToWordTimings al, t.start ≤ t.stop) ∧
    ((generateEstimatedWordTimings text d).Pairwise
        (fun a b => a.start ≤ b.start) ∧
      (10 * ((wordsOf text).length : ℚ) ≤ d →
        ∀ t ∈ generateEstimatedWordTimings text d, t.start ≤ t.stop)) := by
  have hinv := extractWordsLoop_invariant
    (al.characters.zip
      (al.characterStartTimesSeconds.zip al.characterEndTimesSeconds))
    [] 0 0 hchain (le_refl 0)
  rw [alignmentToWordTimings]
  refine ⟨⟨?_, hinv.2.1⟩, generateEstimatedWordTimings_sorted text d hd,
    fun h => generateEstimatedWordTimings_wf text d h⟩
  exact hinv.1.imp_of_mem (fun ha hb hr => le_trans (hinv.2.1 _ ha) hr)

/-- **C6** counterexample.  A two-word text with a 10 ms total duration gives
average slice 5 ms, so the first word's estimated end is `round(5 - 10) = -5`,
strictly below its start `0`: the fallback violates `start ≤ end`. -/
theorem c6_counterexample :
    generateEstimatedWordTimings ['a', ' ', 'b'] 10 =
      [⟨['a'], 0, -5⟩, ⟨['b'], 5, 0⟩] ∧ (-5 : ℤ) < 0 := by
  refine ⟨?_, by decide⟩
  have hw : wordsOf ['a', ' ', 'b'] = [['a'], ['b']] := by decide
  simp only [generateEstimatedWordTimings, hw]
  norm_num [List.enum, List.enumFrom, jsRound, isPunct]
  decide

theorem c6_witness :
    ((generateEstimatedWordTimings ['a', ' ', 'b'] 40).Pairwise
        (fun a b => a.start ≤ b.start) ∧
      ∀ t ∈ generateEstimatedWordTimings ['a', ' ', 'b'] 40,
        t.start ≤ t.stop) ∧
    (alignmentToWordTimings ⟨['h', 'i'], [0, 1/10], [1/10, 1/5]⟩).Pairwise
      (fun a b => a.start ≤ b.start) := by
  have h := c6_word_timing_monotonicity ⟨['h', 'i'], [0, 1/10], [1/10, 1/5]⟩
    ['a', ' ', 'b'] 40
    (by norm_num [alignChain, List.zip, List.zipWith])
    (by norm_num)
  refine ⟨⟨h.2.1, h.2.2 ?_⟩, h.1.1⟩
  have hw : wordsOf ['a', ' ', 'b'] = [['a'], ['b']] := by decide
  rw [hw]
  norm_num

theorem wordsAux_nil (acc : List Char) :
    wordsAux [] acc = if acc.isEmpty then [] else [acc.reverse] := rfl

theorem wordsAux_all_ws :
    ∀ (l : List Char), (∀ c ∈ l, isWS c = true) → wordsAux l [] = [] := by
  intro l
  induction l with
  | nil => intro _; rfl
  | cons c cs ih =>
    intro h
    rw [wordsAux, if_pos (h c (List.mem_cons_self _ _))]
    simp only [List.isEmpty_nil, if_true]
    exact ih (fun x hx => h x (List.mem_cons_of_mem _ hx))

/-- Splitting a character list at a whitespace character splits its words. -/
theorem wordsAux_append_ws {w : Char} (hw : isWS w = true) :
    ∀ (u v acc : List Char),
      wordsAux (u ++ w :: v) acc = wordsAux u acc ++ wordsAux v [] := by
  intro u
  induction u with
  | nil =>
    intro v acc
    simp only [List.nil_append]
    conv_lhs => rw [wordsAux]
    conv_rhs => rw [wordsAux]
    rw [if_pos hw]
    by_cases hacc : acc.isEmpty = true
    · rw [if_pos hacc, if_pos hacc, List.nil_append]
    · rw [if_neg hacc, if_neg hacc, List.singleton_append]
  | cons c u2 ih =>
    intro v acc
    simp only [List.cons_append]
    conv_lhs => rw [wordsAux]
    conv_rhs => rw [wordsAux]
    by_cases hc : isWS c = true
    · rw [if_pos hc, if_pos hc]
      by_cases hacc : acc.isEmpty = true
      · rw [if_pos hacc, if_pos hacc, ih]
      · rw [if_neg hacc, if_neg hacc, ih, List.cons_append]
    · rw [if_neg hc, if_neg hc, ih]

theorem wordsAux_dropWhile_ws :
    ∀ (l : List Char), wordsAux (l.dropWhile isWS) [] = wordsAux l [] := by
  intro l
  induction l with
  | nil => rfl
  | cons c cs ih =>
    by_cases hc : isWS c = true
    · rw [List.dropWhile_cons_of_pos hc, ih, wordsAux, if_pos hc]
      simp
    · rw [List.dropWhile_cons_of_neg (by simp [hc])]

theorem wordsAux_no_ws :
    ∀ (u acc : List Char), (∀ c ∈ u, isWS c = false) →
      wordsAux u acc =
        if (acc.reverse ++ u).isEmpty then [] else [acc.reverse ++ u] := by
  intro u
  induction u with
  | nil =>
    intro acc _
    rw [wordsAux_nil]
    by_cases hacc : acc.isEmpty = true
    · rw [if_pos hacc, if_pos (by simpa using hacc)]
    · rw [if_neg hacc, if_neg (by simpa using hacc)]
      simp
  | cons c u2 ih =>
    intro acc h
    rw [wordsAux, if_neg (by simp [h c (List.mem_cons_self _ _)])]
    rw [ih (c :: acc) (fun x hx => h x (List.mem_cons_of_mem _ hx))]
    simp

theorem wordsAux_ne_nil :
    ∀ (l acc : List Char), acc ≠ [] → wordsAux l acc ≠ [] := by
  intro l
  induction l with
  | nil =>
    intro acc h
    rw [wordsAux_nil, if_neg (by simpa [List.isEmpty_iff] using h)]
    simp
  | cons c cs ih =>
    intro acc h
    rw [wordsAux]
    by_cases hc : isWS c = true
    · rw [if_pos hc, if_neg (by simpa [List.isEmpty_iff] using h)]
      simp
    · rw [if_neg hc]
      exact ih (c :: acc) (by simp)

theorem joinSp_nil : joinSp [] = [] := rfl

theorem joinSp_single (a : List Char) : joinSp [a] = a := by
  simp [joinSp, List.intercalate]

theorem joinSp_cons (a : List Char) (l : List (List Char)) (h : l ≠ []) :
    joinSp (a :: l) = a ++ ' ' :: joinSp l := by
  obtain ⟨b, l2, rfl⟩ := List.exists_cons_of_ne_nil h
  simp [joinSp, List.intercalate]

theorem wordsOf_append_all_ws (u v : List Char)
    (h : ∀ c ∈ v, isWS c = true) : wordsOf (u ++ v) = wordsOf u := by
  cases v with
  | nil => simp
  | cons w v2 =>
    unfold wordsOf
    rw [wordsAux_append_ws (h w (List.mem_cons_self _ _))]
    rw [wordsAux_all_ws v2 (fun x hx => h x (List.mem_cons_of_mem _ hx))]
    simp

theorem wordsOf_trimRight (l : List Char) :
    wordsOf (trimRight l) = wordsOf l := by
  have hdecomp : l = trimRight l ++ (l.reverse.takeWhile isWS).reverse := by
    unfold trimRight
    rw [← List.reverse_append, List.takeWhile_append_dropWhile,
      List.reverse_reverse]
  conv_rhs => rw [hdecomp]
  refine (wordsOf_append_all_ws _ _ ?_).symm
  intro c hc
  rw [List.mem_reverse] at hc
  exact List.mem_takeWhile_imp hc

theorem wordsOf_jsTrim (l : List Char) : wordsOf (jsTrim l) = wordsOf l := by
  show wordsOf (trimRight (l.dropWhile isWS)) = wordsOf l
  rw [wordsOf_trimRight]
  exact wordsAux_dropWhile_ws l

theorem tmWsRun_ws {prev : Option Char} {c : Char} {cs : List Char}
    (hc : isWS c = true) :
    tmWsRun prev (c :: cs) = some (1 + (cs.takeWhile isWS).length, [' ']) := by
  simp [tmWsRun, hc]

theorem tmWsRun_not_ws {prev : Option Char} {c : Char} {cs : List Char}
    (hc : isWS c = false) : tmWsRun prev (c :: cs) = none := by
  simp [tmWsRun, hc]

/-- `/\s+/g` ignores the previous character, so the engine state does not
matter for it. -/
theorem replAll_tmWsRun_prev :
    ∀ (f : ℕ) (p₁ p₂ : Option Char) (s : List Char),
      replAll tmWsRun f p₁ s = replAll tmWsRun f p₂ s := by
  intro f p₁ p₂ s
  cases s with
  | nil => rw [replAll_nil, replAll_nil]
  | cons c cs =>
    cases f with
    | zero => rfl
    | succ f =>
      by_cases hc : isWS c = true
      · rw [replAll_cons_some f (tmWsRun_ws hc),
          replAll_cons_some f (tmWsRun_ws hc)]
      · have hc2 : isWS c = false := by simpa using hc
        rw [replAll_cons_none f (tmWsRun_not_ws hc2),
          replAll_cons_none f (tmWsRun_not_ws hc2)]

theorem drop_takeWhile_length (p : Char → Bool) :
    ∀ (cs : List Char), cs.drop (cs.takeWhile p).length = cs.dropWhile p := by
  intro cs
  induction cs with
  | nil => rfl
  | cons c cs ih =>
    by_cases hc : p c = true
    · rw [List.takeWhile_cons_of_pos hc, List.dropWhile_cons_of_pos hc]
      simpa using ih
    · rw [List.takeWhile_cons_of_neg hc, List.dropWhile_cons_of_neg hc]
      rfl

theorem applyRepl_tmWsRun_cons_nonws {c : Char} {cs : List Char}
    (hc : isWS c = false) :
    applyRepl tmWsRun (c :: cs) = c :: applyRepl tmWsRun cs := by
  unfold applyRepl
  simp only [List.length_cons]
  rw [replAll_cons_none cs.length (tmWsRun_not_ws hc)]
  rw [replAll_tmWsRun_prev cs.length (some c) none cs]

theorem applyRepl_tmWsRun_cons_ws {c : Char} {cs : List Char}
    (hc : isWS c = true) :
    applyRepl tmWsRun (c :: cs) =
      ' ' :: applyRepl tmWsRun (cs.dropWhile isWS) := by
  unfold applyRepl
  simp only [List.length_cons]
  rw [replAll_cons_some cs.length (tmWsRun_ws hc)]
  have hmax : max (1 + (cs.takeWhile isWS).length) 1 =
      1 + (cs.takeWhile isWS).length := by omega
  rw [hmax]
  rw [show (c :: cs).drop (1 + (cs.takeWhile isWS).length) =
      cs.drop ((cs.takeWhile isWS).length) from by
    rw [Nat.add_comm]
    rfl]
  rw [drop_takeWhile_length]
  rw [List.singleton_append]
  congr 1
  rw [replAll_tmWsRun_prev cs.length _ none]
  exact replAll_fuel_congr tmWsRun cs.length (cs.dropWhile isWS) cs.length
    (cs.dropWhile isWS).length none ((List.dropWhile_suffix isWS).length_le)
    ((List.dropWhile_suffix isWS).length_le) (le_refl _)

theorem applyRepl_tmWsRun_keep :
    ∀ (u v : List Char), (∀ c ∈ u, isWS c = false) →
      applyRepl tmWsRun (u ++ v) = u ++ applyRepl tmWsRun v := by
  intro u
  induction u with
  | nil => intro v _; simp
  | cons c u2 ih =>
    intro v hu
    rw [List.cons_append,
      applyRepl_tmWsRun_cons_nonws (hu c (List.mem_cons_self _ _)),
      ih v (fun x hx => hu x (List.mem_cons_of_mem _ hx)), List.cons_append]

theorem jsTrim_cons_ws {c : Char} {l : List Char} (hc : isWS c = true) :
    jsTrim (c :: l) = jsTrim l := by
  unfold jsTrim
  rw [List.dropWhile_cons_of_pos hc]

theorem wordsOf_cons_ws {c : Char} {cs : List Char} (hc : isWS c = true) :
    wordsOf (c :: cs) = wordsOf cs := by
  unfold wordsOf
  rw [wordsAux, if_pos hc]
  simp

theorem dropWhile_head_false {p : Char → Bool} :
    ∀ (l : List Char) {w : Char} {r : List Char},
      l.dropWhile p = w :: r → p w = false := by
  intro l
  induction l with
  | nil => intro w r h; simp at h
  | cons a l2 ih =>
    intro w r h
    by_cases ha : p a = true
    · rw [List.dropWhile_cons_of_pos ha] at h
      exact ih h
    · rw [List.dropWhile_cons_of_neg ha] at h
      injection h with h1 _
      subst h1
      simpa using ha

theorem trimRight_append_nonws (u v : List Char)
    (hv : ∃ c ∈ v, isWS c = false) :
    trimRight (u ++ v) = u ++ trimRight v := by
  obtain ⟨c, hcv, hc⟩ := hv
  have hne : v.reverse.dropWhile isWS ≠ [] := by
    intro hnil
    rw [List.dropWhile_eq_nil_iff] at hnil
    have := hnil c (List.mem_reverse.mpr hcv)
    simp [hc] at this
  unfold trimRight
  rw [List.reverse_append, List.dropWhile_append,
    if_neg (by simpa [List.isEmpty_iff] using hne),
    List.reverse_append, List.reverse_reverse]

theorem jsTrim_nonws_append_ws (u v : List Char)
    (hu : ∀ c ∈ u, isWS c = false) (hv : ∀ c ∈ v, isWS c = true) :
    jsTrim (u ++ v) = u := by
  cases u with
  | nil =>
    simp only [List.nil_append]
    unfold jsTrim
    have h1 : v.dropWhile isWS = [] :=
      List.dropWhile_eq_nil_iff.mpr (fun x hx => by simp [hv x hx])
    rw [h1]
    rfl
  | cons c u2 =>
    unfold jsTrim
    rw [List.cons_append,
      List.dropWhile_cons_of_neg (by simp [hu c (List.mem_cons_self _ _)]),
      ← List.cons_append, List.reverse_append, List.dropWhile_append,
      if_pos (by
        simp only [List.isEmpty_iff]
        rw [List.dropWhile_eq_nil_iff]
        intro x hx
        simp [hv x (List.mem_reverse.mp hx)]),
      dropWhile_ws_eq_self (fun x hx => hu x (List.mem_reverse.mp hx)),
      List.reverse_reverse]

theorem trimRight_def_rev (l : List Char) :
    (l.reverse.dropWhile isWS).reverse = trimRight l := rfl

/-- `replace(/\s+/g, ' ').trim()` is the words joined back with single
spaces. -/
theorem collapseWsTrim_eq_joinSp :
    ∀ (n : ℕ) (s : List Char), s.length ≤ n →
      collapseWsTrim s = joinSp (wordsOf s) := by
  intro n
  induction n with
  | zero =>
    intro s hs
    have h0 : s = [] := List.length_eq_zero.mp (Nat.le_zero.mp hs)
    subst h0
    rfl
  | succ n ih =>
    intro s hs
    cases s with
    | nil => rfl
    | cons c cs =>
      by_cases hc : isWS c = true
      · unfold collapseWsTrim
        rw [applyRepl_tmWsRun_cons_ws hc, jsTrim_cons_ws (by decide)]
        have hlen : (cs.dropWhile isWS).length ≤ n :=
          le_trans ((List.dropWhile_suffix isWS).length_le) (by
            simp only [List.length_cons] at hs
            omega)
        have hih := ih (cs.dropWhile isWS) hlen
        unfold collapseWsTrim at hih
        rw [hih, wordsOf_cons_ws hc]
        unfold wordsOf
        rw [wordsAux_dropWhile_ws]
      · have hc2 : isWS c = false := by simpa using hc
        have hu_ne : (fun x => !isWS x) c = true := by simp [hc2]
        have hu_cons : (c :: cs).takeWhile (fun x => !isWS x) =
            c :: cs.takeWhile (fun x => !isWS x) :=
          List.takeWhile_cons_of_pos hu_ne
        have hdecomp : (c :: cs).takeWhile (fun x => !isWS x) ++
            (c :: cs).dropWhile (fun x => !isWS x) = c :: cs :=
          List.takeWhile_append_dropWhile _ _
        have hu_nonws : ∀ x ∈ (c :: cs).takeWhile (fun x => !isWS x),
            isWS x = false := by
          intro x hx
          have := List.mem_takeWhile_imp hx
          simpa using this
        cases hr : (c :: cs).dropWhile (fun x => !isWS x) with
        | nil =>
          rw [hr, List.append_nil] at hdecomp
          rw [← hdecomp]
          unfold collapseWsTrim
          have happ : applyRepl tmWsRun
              ((c :: cs).takeWhile (fun x => !isWS x)) =
              (c :: cs).takeWhile (fun x => !isWS x) := by
            have h3 := applyRepl_tmWsRun_keep
              ((c :: cs).takeWhile (fun x => !isWS x)) [] hu_nonws
            rw [show applyRepl tmWsRun [] = [] from rfl,
              List.append_nil] at h3
            exact h3
          rw [happ, jsTrim_eq_self_of_no_ws hu_nonws]
          unfold wordsOf
          rw [wordsAux_no_ws _ [] hu_nonws]
          rw [if_neg (by
            rw [hu_cons]
            simp)]
          simp only [List.reverse_nil, List.nil_append, joinSp_single]
        | cons w r2 =>
          have hw : isWS w = true := by
            have := dropWhile_head_false (c :: cs) hr
            simpa using this
          rw [hr] at hdecomp
          rw [← hdecomp]
          unfold collapseWsTrim
          rw [applyRepl_tmWsRun_keep _ (w :: r2) hu_nonws]
          rw [applyRepl_tmWsRun_cons_ws hw]
          have hlen2 : (r2.dropWhile isWS).length ≤ n := by
            have h1 : (r2.dropWhile isWS).length ≤ r2.length :=
              (List.dropWhile_suffix isWS).length_le
            have h2 : ((c :: cs).takeWhile (fun x => !isWS x)).length +
                (w :: r2).length = cs.length + 1 := by
              rw [← List.length_append, hdecomp]
              rfl
            simp only [List.length_cons] at h2 hs
            rw [hu_cons] at h2
            simp only [List.length_cons] at h2
            omega
          have hih := ih (r2.dropWhile isWS) hlen2
          unfold collapseWsTrim at hih
          cases hD : r2.dropWhile isWS with
          | nil =>
            rw [show applyRepl tmWsRun [] = [] from rfl]
            rw [jsTrim_nonws_append_ws _ [' '] hu_nonws (by
              intro x hx
              simp only [List.mem_singleton] at hx
              subst hx
              decide)]
            unfold wordsOf
            rw [wordsAux_append_ws hw]
            rw [show wordsAux r2 [] = wordsAux (r2.dropWhile isWS) [] from
              (wordsAux_dropWhile_ws r2).symm]
            rw [hD]
            rw [show wordsAux ([] : List Char) [] = [] from rfl,
              List.append_nil]
            rw [wordsAux_no_ws _ [] hu_nonws]
            rw [if_neg (by
              rw [hu_cons]
              simp)]
            simp only [List.reverse_nil, List.nil_append, joinSp_single]
          | cons z D2 =>
            have hz : isWS z = false := by
              have := dropWhile_head_false r2 hD
              simpa using this
            rw [hD] at hih
            rw [applyRepl_tmWsRun_cons_nonws hz]
            set Y2 := applyRepl tmWsRun D2 with hY2
            have hjsY : jsTrim (z :: Y2) = trimRight (z :: Y2) := by
              unfold jsTrim
              rw [List.dropWhile_cons_of_neg (by simp [hz])]
              rfl
            have hmemz : ∃ x ∈ ' ' :: z :: Y2, isWS x = false :=
              ⟨z, by simp, hz⟩
            unfold jsTrim
            rw [hu_cons, List.cons_append,
              List.dropWhile_cons_of_neg (by simp [hc2]),
              ← List.cons_append, ← hu_cons]
            rw [trimRight_def_rev]
            rw [trimRight_append_nonws _ _ hmemz]
            rw [show (' ' :: z :: Y2 : List Char) =
              [' '] ++ z :: Y2 from rfl]
            rw [trimRight_append_nonws [' '] _ ⟨z, by simp, hz⟩]
            rw [show trimRight (z :: Y2) = jsTrim (z :: Y2) from hjsY.symm]
            rw [show jsTrim (z :: Y2) =
                jsTrim (applyRepl tmWsRun (z :: D2)) from by
              rw [applyRepl_tmWsRun_cons_nonws hz]]
            rw [hih]
            unfold wordsOf
            rw [wordsAux_append_ws hw]
            rw [show wordsAux r2 [] = wordsAux (r2.dropWhile isWS) [] from
              (wordsAux_dropWhile_ws r2).symm]
            rw [hD]
            rw [wordsAux_no_ws _ [] hu_nonws]
            rw [if_neg (by
              rw [hu_cons]
              simp)]
            simp only [List.reverse_nil, List.nil_append,
              List.singleton_append]
            rw [joinSp_cons _ _ (by
              have hzz : wordsAux (z :: D2) [] = wordsAux D2 [z] := by
                rw [wordsAux, if_neg (by simp [hz])]
              rw [hzz]
              exact wordsAux_ne_nil D2 [z] (by simp))]

/-- Splitting at a boundary whose adjacent character (on either side) is
whitespace splits the word list. -/
theorem wordsOf_append_boundary (u v : List Char)
    (h : (match u.getLast? with | some c => isWS c | none => true) = true ∨
         (match v.head? with | some c => isWS c | none => true) = true) :
    wordsOf (u ++ v) = wordsOf u ++ wordsOf v := by
  rcases h with h | h
  · cases hu : u.getLast? with
    | none =>
      have h0 : u = [] := by
        cases u with
        | nil => rfl
        | cons a as => simp at hu
      subst h0
      simp only [List.nil_append]
      rw [show wordsOf ([] : List Char) = [] from rfl, List.nil_append]
    | some c =>
      rw [hu] at h
      have hne : u ≠ [] := by
        intro h0
        subst h0
        simp at hu
      have hcc : u.getLast hne = c := by
        have h1 := List.getLast?_eq_getLast u hne
        rw [hu] at h1
        injection h1 with h2
        exact h2.symm
      have hdrop : u.dropLast ++ [c] = u := by
        rw [← hcc]
        exact List.dropLast_append_getLast hne
      rw [← hdrop, List.append_assoc]
      unfold wordsOf
      rw [List.singleton_append]
      rw [wordsAux_append_ws h]
      rw [wordsAux_append_ws h]
      rw [show wordsAux ([] : List Char) [] = [] from rfl, List.append_nil]
  · cases hv : v.head? with
    | none =>
      have h0 : v = [] := by
        cases v with
        | nil => rfl
        | cons a as => simp at hv
      subst h0
      simp only [List.append_nil]
      rw [show wordsOf ([] : List Char) = [] from rfl, List.append_nil]
    | some c =>
      rw [hv] at h
      obtain ⟨v2, rfl⟩ : ∃ v2, v = c :: v2 := by
        cases v with
        | nil => simp at hv
        | cons a as =>
          simp at hv
          exact ⟨as, by rw [hv]⟩
      unfold wordsOf
      rw [wordsAux_append_ws h]
      congr 1
      rw [wordsAux, if_pos h]
      simp

theorem wordsOf_joinSp :
    ∀ (L : List (List Char)), wordsOf (joinSp L) = L.flatMap wordsOf := by
  intro L
  induction L with
  | nil => rfl
  | cons a l ih =>
    cases l with
    | nil => simp [joinSp_single]
    | cons b l2 =>
      rw [joinSp_cons a (b :: l2) (by simp)]
      unfold wordsOf
      rw [wordsAux_append_ws (by decide)]
      rw [List.flatMap_cons]
      have ih2 : wordsAux (joinSp (b :: l2)) [] =
          (b :: l2).flatMap wordsOf := ih
      rw [ih2]
      rfl

theorem flatMap_wordsOf_filter :
    ∀ (L : List (List Char)),
      (L.filter (fun c => !c.isEmpty)).flatMap wordsOf =
        L.flatMap wordsOf := by
  intro L
  induction L with
  | nil => rfl
  | cons a l ih =>
    by_cases ha : a.isEmpty = true
    · have ha2 : a = [] := by simpa [List.isEmpty_iff] using ha
      subst ha2
      rw [List.filter_cons]
      simp only [List.isEmpty_nil, Bool.not_true, Bool.false_eq_true,
        if_false, List.flatMap_cons]
      simpa using ih
    · rw [List.filter_cons, if_pos (by simpa using ha),
        List.flatMap_cons, List.flatMap_cons, ih]

theorem splitIntoChunksFuel_fit {maxChars fuel : ℕ} {c : Char}
    {cs : List Char} (h : (c :: cs).length ≤ maxChars) :
    splitIntoChunksFuel maxChars (fuel + 1) (c :: cs) = [c :: cs] := by
  have hunf : splitIntoChunksFuel maxChars (fuel + 1) (c :: cs) =
      if (c :: cs).length ≤ maxChars then [c :: cs]
      else
        jsTrim ((c :: cs).take
            (chooseSplitPoint maxChars ((c :: cs).take maxChars)).toNat) ::
          splitIntoChunksFuel maxChars fuel
            (jsTrim ((c :: cs).drop
              (chooseSplitPoint maxChars ((c :: cs).take maxChars)).toNat)) :=
    rfl
  rw [hunf, if_pos h]

theorem splitIntoChunksFuel_step {maxChars fuel : ℕ} {c : Char}
    {cs : List Char} (h : ¬((c :: cs).length ≤ maxChars)) :
    splitIntoChunksFuel maxChars (fuel + 1) (c :: cs) =
      jsTrim ((c :: cs).take
          (chooseSplitPoint maxChars ((c :: cs).take maxChars)).toNat) ::
        splitIntoChunksFuel maxChars fuel
          (jsTrim ((c :: cs).drop
            (chooseSplitPoint maxChars ((c :: cs).take maxChars)).toNat)) := by
  have hunf : splitIntoChunksFuel maxChars (fuel + 1) (c :: cs) =
      if (c :: cs).length ≤ maxChars then [c :: cs]
      else
        jsTrim ((c :: cs).take
            (chooseSplitPoint maxChars ((c :: cs).take maxChars)).toNat) ::
          splitIntoChunksFuel maxChars fuel
            (jsTrim ((c :: cs).drop
              (chooseSplitPoint maxChars ((c :: cs).take maxChars)).toNat)) :=
    rfl
  rw [hunf, if_neg h]

theorem splitOkFuel_step {maxChars fuel : ℕ} {c : Char} {cs : List Char}
    (h : ¬((c :: cs).length ≤ maxChars)) :
    splitOkFuel maxChars (fuel + 1) (c :: cs) =
      (((match ((c :: cs).take
            (chooseSplitPoint maxChars ((c :: cs).take maxChars)).toNat
            ).getLast? with
         | some c' => isWS c'
         | none => true) ||
        (match ((c :: cs).drop
            (chooseSplitPoint maxChars ((c :: cs).take maxChars)).toNat
            ).head? with
         | some c' => isWS c'
         | none => true)) &&
        splitOkFuel maxChars fuel
          (jsTrim ((c :: cs).drop
            (chooseSplitPoint maxChars ((c :: cs).take maxChars)).toNat))) := by
  have hunf : splitOkFuel maxChars (fuel + 1) (c :: cs) =
      if (c :: cs).length ≤ maxChars then true
      else
        (((match ((c :: cs).take
              (chooseSplitPoint maxChars ((c :: cs).take maxChars)).toNat
              ).getLast? with
           | some c' => isWS c'
           | none => true) ||
          (match ((c :: cs).drop
              (chooseSplitPoint maxChars ((c :: cs).take maxChars)).toNat
              ).head? with
           | some c' => isWS c'
           | none => true)) &&
          splitOkFuel maxChars fuel
            (jsTrim ((c :: cs).drop
              (chooseSplitPoint maxChars ((c :: cs).take maxChars)).toNat))) :=
    rfl
  rw [hunf, if_neg h]

/-- Whenever every boundary the split loop chooses is adjacent to
whitespace, the chunks' words are exactly the input's words. -/
theorem splitOkFuel_flatMap (maxChars : ℕ) :
    ∀ (fuel : ℕ) (remaining : List Char),
      splitOkFuel maxChars fuel remaining = true →
      (splitIntoChunksFuel maxChars fuel remaining).flatMap wordsOf =
        wordsOf remaining := by
  intro fuel
  induction fuel with
  | zero =>
    intro remaining h
    cases remaining with
    | nil => rfl
    | cons c cs => simp [splitOkFuel] at h
  | succ fuel ih =>
    intro remaining h
    cases remaining with
    | nil => rfl
    | cons c cs =>
      by_cases hlen : (c :: cs).length ≤ maxChars
      · rw [splitIntoChunksFuel_fit hlen]
        simp
      · rw [splitOkFuel_step hlen, Bool.and_eq_true] at h
        rw [splitIntoChunksFuel_step hlen, List.flatMap_cons]
        rw [ih _ h.2]
        rw [wordsOf_jsTrim, wordsOf_jsTrim]
        rw [← wordsOf_append_boundary _ _ (by
          rcases Bool.or_eq_true_iff.mp h.1 with h1 | h1
          · exact Or.inl h1
          · exact Or.inr h1)]
        rw [List.take_append_drop]

/-- **C4** (amended).  Lossless reconstruction holds whenever every split
boundary is adjacent to whitespace (`splitBoundariesOk`): joining the chunks
with single spaces and collapsing whitespace reproduces the collapsed input.
The unconditional claim is false: the hard-split fallback can cut a word in
two (see the counterexample). -/
theorem c4_lossless_reconstruction (maxChars : ℕ) (text : List Char)
    (h : splitBoundariesOk maxChars text = true) :
    collapseWsTrim (joinSp (splitIntoChunks maxChars text)) =
      collapseWsTrim text := by
  rw [collapseWsTrim_eq_joinSp
      (joinSp (splitIntoChunks maxChars text)).length _ (le_refl _),
    collapseWsTrim_eq_joinSp text.length text (le_refl _)]
  rw [wordsOf_joinSp]
  unfold splitIntoChunks
  rw [flatMap_wordsOf_filter]
  rw [splitOkFuel_flatMap maxChars (text.length + 1) text h]

theorem lastIndexOfAux_none (pat : List Char) :
    ∀ (s : List Char) (i : ℕ) (best : ℤ),
      (∀ t, t <:+ s → pat.isPrefixOf t = false) →
      lastIndexOfAux pat s i best = best := by
  intro s
  induction s with
  | nil => intro i best _; rfl
  | cons c cs ih =>
    intro i best h
    rw [lastIndexOfAux]
    rw [if_neg (by simp [h (c :: cs) List.suffix_rfl])]
    exact ih (i + 1) best (fun t ht => h t (ht.trans (List.suffix_cons c cs)))

theorem isPrefixOf_replicate_false {p0 : Char} {pat : List Char} {n : ℕ}
    (hpat : pat.head? = some p0) (hne : (p0 == 'a') = false) :
    ∀ (t : List Char), t <:+ List.replicate n 'a' →
      pat.isPrefixOf t = false := by
  intro t ht
  obtain ⟨q, qs, rfl⟩ : ∃ q qs, pat = q :: qs := by
    cases pat with
    | nil => simp at hpat
    | cons q qs => exact ⟨q, qs, rfl⟩
  have hq : q = p0 := by
    simp only [List.head?_cons] at hpat
    injection hpat
  subst hq
  cases t with
  | nil => rfl
  | cons c t2 =>
    have hc : c = 'a' := by
      have hmem : c ∈ List.replicate n 'a' :=
        ht.subset (List.mem_cons_self _ _)
      exact List.eq_of_mem_replicate hmem
    subst hc
    simp only [List.isPrefixOf_cons₂]
    rw [hne]
    rfl

theorem lastIndexOf_replicate_none {p0 : Char} {pat : List Char} {n : ℕ}
    (hpat : pat.head? = some p0) (hne : (p0 == 'a') = false) :
    lastIndexOf pat (List.replicate n 'a') = -1 :=
  lastIndexOfAux_none pat _ 0 (-1)
    (isPrefixOf_replicate_false hpat hne)

theorem bestSentenceSplit_replicate {n : ℕ} :
    bestSentenceSplit 4500 (List.replicate n 'a') = -1 := by
  unfold bestSentenceSplit
  rw [show sentenceEnders =
    [['.', ' '], ['!', ' '], ['?', ' '], ['.', '\n'], ['!', '\n'],
      ['?', '\n']] from rfl]
  simp only [List.foldl_cons, List.foldl_nil]
  rw [lastIndexOf_replicate_none
      (show (['.', ' '] : List Char).head? = some '.' from rfl) (by decide),
    lastIndexOf_replicate_none
      (show (['!', ' '] : List Char).head? = some '!' from rfl) (by decide),
    lastIndexOf_replicate_none
      (show (['?', ' '] : List Char).head? = some '?' from rfl) (by decide),
    lastIndexOf_replicate_none
      (show (['.', '\n'] : List Char).head? = some '.' from rfl) (by decide),
    lastIndexOf_replicate_none
      (show (['!', '\n'] : List Char).head? = some '!' from rfl) (by decide),
    lastIndexOf_replicate_none
      (show (['?', '\n'] : List Char).head? = some '?' from rfl) (by decide)]
  norm_num

theorem chooseSplitPoint_replicate {n : ℕ} :
    chooseSplitPoint 4500 (List.replicate n 'a') = 4500 := by
  unfold chooseSplitPoint
  rw [bestSentenceSplit_replicate]
  rw [lastIndexOf_replicate_none
    (show (['\n'] : List Char).head? = some '\n' from rfl) (by decide)]
  rw [lastIndexOf_replicate_none
    (show ([' '] : List Char).head? = some ' ' from rfl) (by decide)]
  norm_num

theorem replicate_a_no_ws {n : ℕ} :
    ∀ c ∈ List.replicate n 'a', isWS c = false := by
  intro c hc
  rw [List.eq_of_mem_replicate hc]
  decide

theorem splitIntoChunks_replicate :
    splitIntoChunks 4500 (List.replicate 4501 'a') =
      [List.replicate 4500 'a', ['a']] := by
  have hrep : List.replicate 4501 'a' = 'a' :: List.replicate 4500 'a' := by
    rw [show (4501 : ℕ) = 4500 + 1 from by norm_num]
    rfl
  have htake : List.take 4500 (List.replicate 4501 'a') =
      List.replicate 4500 'a' := by
    rw [List.take_replicate]
    norm_num
  have hdrop : List.drop 4500 (List.replicate 4501 'a') = ['a'] := by
    rw [List.drop_replicate, show (4501 - 4500 : ℕ) = 1 from by norm_num]
    rfl
  unfold splitIntoChunks
  rw [List.length_replicate]
  rw [hrep]
  rw [splitIntoChunksFuel_step (by
    simp only [List.length_cons, List.length_replicate]
    norm_num)]
  rw [← hrep]
  rw [htake]
  rw [chooseSplitPoint_replicate]
  rw [show ((4500 : ℤ)).toNat = 4500 from rfl]
  rw [htake, hdrop]
  rw [jsTrim_eq_self_of_no_ws replicate_a_no_ws,
    jsTrim_eq_self_of_no_ws (by
      intro c hc
      simp only [List.mem_singleton] at hc
      subst hc
      decide)]
  rw [show (4501 : ℕ) = 4500 + 1 from by norm_num]
  rw [splitIntoChunksFuel_fit (by norm_num)]
  rw [List.filter_cons, List.filter_cons, List.filter_nil]
  rw [if_pos (by simp), if_pos (by simp)]

theorem replicate_isEmpty_false {n : ℕ} (h : n ≠ 0) :
    (List.replicate n 'a').isEmpty = false := by
  cases n with
  | zero => exact absurd rfl h
  | succ m =>
    rw [List.replicate_succ]
    rfl

/-- **C4** counterexample.  On 4501 identical non-whitespace characters the
splitter hard-splits mid-word: joining the two chunks with a space yields a
4502-character string (an extra space inside the word), which no whitespace
collapse can reconcile with the 4501-character input. -/
theorem c4_counterexample :
    collapseWsTrim (joinSp
        (splitIntoChunks MAX_CHUNK_CHARS (List.replicate 4501 'a'))) ≠
      collapseWsTrim (List.replicate 4501 'a') := by
  rw [show MAX_CHUNK_CHARS = 4500 from rfl]
  rw [splitIntoChunks_replicate]
  rw [joinSp_cons _ _ (by simp), joinSp_single]
  rw [collapseWsTrim_eq_joinSp
    (List.replicate 4500 'a' ++ ' ' :: ['a']).length _ (le_refl _)]
  rw [collapseWsTrim_eq_joinSp
    (List.replicate 4501 'a').length _ (le_refl _)]
  have hw1 : wordsOf (List.replicate 4500 'a' ++ ' ' :: ['a']) =
      [List.replicate 4500 'a', ['a']] := by
    unfold wordsOf
    rw [wordsAux_append_ws (by decide)]
    rw [wordsAux_no_ws _ [] replicate_a_no_ws]
    rw [if_neg (by
      intro hcond
      rw [List.reverse_nil, List.nil_append] at hcond
      rw [replicate_isEmpty_false (by norm_num)] at hcond
      exact Bool.false_ne_true hcond)]
    rw [show wordsAux ['a'] [] = [['a']] from by decide]
    rfl
  have hw2 : wordsOf (List.replicate 4501 'a') =
      [List.replicate 4501 'a'] := by
    unfold wordsOf
    rw [wordsAux_no_ws _ [] replicate_a_no_ws]
    rw [if_neg (by
      intro hcond
      rw [List.reverse_nil, List.nil_append] at hcond
      rw [replicate_isEmpty_false (by norm_num)] at hcond
      exact Bool.false_ne_true hcond)]
    rfl
  rw [hw1, hw2]
  rw [joinSp_cons _ _ (by simp), joinSp_single, joinSp_single]
  intro heq
  have hlen := congrArg List.length heq
  simp only [List.length_append, List.length_cons, List.length_replicate,
    List.length_singleton] at hlen
  omega

theorem c4_witness :
    splitBoundariesOk MAX_CHUNK_CHARS ['h', 'i', ' ', 'y', 'o'] = true ∧
    collapseWsTrim (joinSp
        (splitIntoChunks MAX_CHUNK_CHARS ['h', 'i', ' ', 'y', 'o'])) =
      collapseWsTrim ['h', 'i', ' ', 'y', 'o'] :=
  ⟨by decide,
    c4_lossless_reconstruction MAX_CHUNK_CHARS ['h', 'i', ' ', 'y', 'o']
      (by decide)⟩

end Consumemate
